import Mathlib

/-!
# Verification of `incremental_sort` (incremental in-place LSD radix sort)

Shallow embedding of `src/lib.rs` (crate `incremental_radix`).  The sorter
works over `Vec<usize>`; we model `usize` values as `Nat` (the source targets
a 64-bit platform, so `usize` facts use `totalBits = 64` explicitly where the
bit width matters).  Panics (`unwrap` on `None`, explicit `panic!`) are
modelled with `Except String`.  Slice indexing / `Vec::swap` out of bounds
would panic in Rust; here list accesses use `getD`, and every theorem about
reachable states carries the in-bounds invariants under which both agree.
-/

namespace IncrementalSort

/-- `enum SorterState` from the source. -/
inductive SorterState where
  | Unprepared
  | Counting
  | ComputeIndexes
  | MoveItems
  | Finished
deriving DecidableEq, Repr

/-- `pub struct IncrementalSorter` from the source.  `max_digit_index` and
`digit_index` are `u8` in the source; they are modelled as `Nat` (all runs
analysed below keep them well inside `u8` range, except where explicitly
discussed for the all-zero-input defect). -/
@[ext]
structure IncrementalSorter where
  iterations_per_call : Nat
  to_sort : List Nat
  state : SorterState
  max_digit_index : Nat
  digit_index : Nat
  new_indexes : List Nat
  loop_index : Nat
  true_count : Nat
  false_count : Nat
  accumulator : Nat
deriving DecidableEq, Repr

namespace IncrementalSorter

/-- `IncrementalSorter::new`. -/
def new (to_sort : List Nat) : IncrementalSorter :=
  { to_sort := to_sort, state := SorterState.Unprepared,
    new_indexes := [],
    max_digit_index := 0, digit_index := 0,
    loop_index := 0, accumulator := 0,
    true_count := 0, false_count := 0,
    iterations_per_call := 32 }

/-- `IncrementalSorter::with_iterations_per_call`. -/
def with_iterations_per_call (to_sort : List Nat) (iterations_per_call : Nat) :
    IncrementalSorter :=
  { new to_sort with iterations_per_call := iterations_per_call }

/-- Bit width of `usize` on the 64-bit targets the crate is built for:
`usize::min_value().count_zeros() + usize::min_value().count_ones() = 64`. -/
def totalBits : Nat := 64

/-- Bit length computed structurally with 64 units of fuel (one per `usize`
bit).  For every `usize` value (`n < 2^64`) this is the exact number of
binary digits of `n` (`0` for `0`). -/
def bitLenAux : Nat → Nat → Nat
  | 0, _ => 0
  | Nat.succ fuel, n => if n = 0 then 0 else bitLenAux fuel (n / 2) + 1

/-- Bit length of a `usize` value. -/
def bitLen (n : Nat) : Nat := bitLenAux totalBits n

/-- `usize::leading_zeros` for a 64-bit `usize`: `64 - (number of bits of n)`,
i.e. `64` for `0`, `63 - log2 n` otherwise. -/
def leadingZeros (n : Nat) : Nat := totalBits - bitLen n

/-- Panic message of `Option::unwrap` on `None` (hit by `prepare` on an
empty input). -/
def unwrapMsg : String := "called Option unwrap on a None value"

/-- Panic message of `IncrementalSorter::prepare` outside `Unprepared`. -/
def prepareMsg : String :=
  "Call to IncrementalSorter prepare when not in the unprepared state"

/-- Panic message of `IncrementalSorter::sort` outside the stepping states. -/
def sortMsg : String := "Call to sort when not in the sorting or prepared state"

/-- `IncrementalSorter::prepare`.  In the source the `min()` over the mapped
leading-zero counts yields `None` for an empty vector and `.unwrap()` panics;
the panic is modelled as an `Except.error`. -/
def prepare (s : IncrementalSorter) : Except String IncrementalSorter :=
  match s.state with
  | SorterState.Unprepared =>
      match (s.to_sort.map leadingZeros).min? with
      | none => Except.error unwrapMsg
      | some fewest_leading_zeros =>
          Except.ok { s with
            max_digit_index := totalBits - fewest_leading_zeros,
            state := SorterState.Counting }
  | _ => Except.error prepareMsg

/-- `IncrementalSorter::get_bit`: `itm & (1 << idx) != 0`.  (`Nat.testBit`
is exactly this for the shift amounts `idx < 64` arising in non-defective
runs.) -/
def get_bit (idx : Nat) (itm : Nat) : Bool := Nat.testBit itm idx

/-- The slice `to_sort[start..stop]` of the source scans. -/
def window (l : List Nat) (start stop : Nat) : List Nat :=
  (l.drop start).take (stop - start)

/-- `IncrementalSorter::bucket_counts`.  Returns the updated sorter and the
`bool` the source returns. -/
def bucket_counts (s : IncrementalSorter) : IncrementalSorter × Bool :=
  let idx := s.digit_index
  let start := s.loop_index
  let stop := min (start + s.iterations_per_call) s.to_sort.length
  let count := (window s.to_sort start stop).countP (fun itm => !get_bit idx itm)
  ({ s with accumulator := s.accumulator + count, loop_index := stop },
   stop == s.to_sort.length)

/-- The body of the `for` loop of `compute_indexes`, pushing one target
index. -/
def pushIndex (acc : IncrementalSorter) (item : Nat) : IncrementalSorter :=
  if get_bit acc.digit_index item then
    { acc with new_indexes := acc.new_indexes ++ [acc.true_count],
               true_count := acc.true_count + 1 }
  else
    { acc with new_indexes := acc.new_indexes ++ [acc.false_count],
               false_count := acc.false_count + 1 }

/-- `IncrementalSorter::compute_indexes`. -/
def compute_indexes (s : IncrementalSorter) : IncrementalSorter × Bool :=
  let start := s.loop_index
  let stop := min (start + s.iterations_per_call) s.to_sort.length
  let s' := (window s.to_sort start stop).foldl pushIndex s
  ({ s' with loop_index := stop }, stop == s.to_sort.length)

/-- `Vec::swap` on a list (in-bounds positions exchange their elements;
out-of-bounds `set`/`getD` are inert whereas Rust would panic — all states
reached in the theorems below are in bounds). -/
def listSwap (l : List Nat) (i j : Nat) : List Nat :=
  (l.set i (l.getD j 0)).set j (l.getD i 0)

/-- One iteration of the `for` loop in `move_items`, fuelled by
`iterations_per_call`.  Mirrors the source exactly: at a fixed point the
cursor advances (returning `true` if it reaches the end) and the swap that
follows is the no-op swap of `idx` with itself. -/
def move_items_loop : Nat → IncrementalSorter → IncrementalSorter × Bool
  | 0, s => (s, false)
  | Nat.succ fuel, s =>
      let idx := s.loop_index
      if s.new_indexes.getD idx 0 = idx then
        let s₁ := { s with loop_index := s.loop_index + 1 }
        if s₁.loop_index = s₁.to_sort.length then
          (s₁, true)
        else
          let cp := s₁.new_indexes.getD idx 0
          move_items_loop fuel
            { s₁ with to_sort := listSwap s₁.to_sort idx cp,
                      new_indexes := listSwap s₁.new_indexes idx cp }
      else
        let cp := s.new_indexes.getD idx 0
        move_items_loop fuel
          { s with to_sort := listSwap s.to_sort idx cp,
                   new_indexes := listSwap s.new_indexes idx cp }

/-- `IncrementalSorter::move_items`. -/
def move_items (s : IncrementalSorter) : IncrementalSorter × Bool :=
  move_items_loop s.iterations_per_call s

/-- `IncrementalSorter::sort` (the public step function).  The `panic!` in
the `Unprepared`/`Finished` states is modelled as an `Except.error`. -/
def sort (s : IncrementalSorter) : Except String (IncrementalSorter × Bool) :=
  match s.state with
  | SorterState.ComputeIndexes =>
      let r := compute_indexes s
      if r.2 then
        Except.ok ({ r.1 with
          state := SorterState.MoveItems,
          loop_index := 0 }, false)
      else
        Except.ok (r.1, false)
  | SorterState.MoveItems =>
      let r := move_items s
      if !r.2 then
        Except.ok (r.1, false)
      else
        let s₁ : IncrementalSorter := { r.1 with digit_index := r.1.digit_index + 1 }
        if s₁.digit_index = s₁.max_digit_index then
          Except.ok ({ s₁ with state := SorterState.Finished }, true)
        else
          Except.ok ({ s₁ with
            state := SorterState.Counting,
            new_indexes := [],
            loop_index := 0,
            accumulator := 0 }, false)
  | SorterState.Counting =>
      let r := bucket_counts s
      if r.2 then
        Except.ok ({ r.1 with
          state := SorterState.ComputeIndexes,
          loop_index := 0,
          false_count := 0,
          true_count := r.1.accumulator }, false)
      else
        Except.ok (r.1, false)
  | _ => Except.error sortMsg

/-- `IncrementalSorter::get_result`: returns `to_sort` unconditionally — the
source performs no state check. -/
def get_result (s : IncrementalSorter) : List Nat := s.to_sort

end IncrementalSorter

open IncrementalSorter

/-- Run `sort` (the step function) `k` times, propagating panics. -/
def stepN (s : IncrementalSorter) : Nat → Except String IncrementalSorter
  | 0 => Except.ok s
  | Nat.succ k =>
      match sort s with
      | Except.ok r => stepN r.1 k
      | Except.error e => Except.error e

/-- Construct with the given budget, `prepare`, then step `k` times. -/
def afterPrepareSteps (l : List Nat) (b k : Nat) :
    Except String IncrementalSorter :=
  match prepare (with_iterations_per_call l b) with
  | Except.ok s => stepN s k
  | Except.error e => Except.error e

/-- States reachable from `with_iterations_per_call l b` by one `prepare`
followed by any number of successful `sort` calls.  (`new l` is
`with_iterations_per_call l 32`.) -/
inductive ReachableFrom (l : List Nat) (b : Nat) : IncrementalSorter → Prop where
  | prepared (s : IncrementalSorter)
      (h : prepare (with_iterations_per_call l b) = Except.ok s) :
      ReachableFrom l b s
  | stepped (s s' : IncrementalSorter) (r : Bool)
      (hs : ReachableFrom l b s) (h : sort s = Except.ok (s', r)) :
      ReachableFrom l b s'

/-- Count of elements whose bit `d` is zero (what `bucket_counts`
accumulates). -/
def cntF (d : Nat) (l : List Nat) : Nat :=
  l.countP (fun x => !IncrementalSorter.get_bit d x)

/-- Count of elements whose bit `d` is one. -/
def cntT (d : Nat) (l : List Nat) : Nat :=
  l.countP (fun x => IncrementalSorter.get_bit d x)

/-- Spec-side closed form of the target-index table (spec §4.4), stated from
the spec's words: scanning in current positional order, a bit-1 element is
assigned the running true cursor (which then increments), a bit-0 element
the running false cursor.  Compared below with the table the embedded
`compute_indexes` builds incrementally. -/
def specTargetTable (d tc fc : Nat) : List Nat → List Nat
  | [] => []
  | x :: xs =>
      if IncrementalSorter.get_bit d x then tc :: specTargetTable d (tc + 1) fc xs
      else fc :: specTargetTable d tc (fc + 1) xs

/-- Stable partition by bit `d` (spec §4.4 and glossary): the bit-0 elements
in original order followed by the bit-1 elements in original order. -/
def stablePartition (d : Nat) (l : List Nat) : List Nat :=
  l.filter (fun x => !IncrementalSorter.get_bit d x) ++
    l.filter (fun x => IncrementalSorter.get_bit d x)

/-- Number of loop iterations a `move_items` call executes, mirroring
`move_items_loop` and charging one unit per executed iteration of the
source's `for` loop (each iteration performs at most one swap). -/
def moveIters : Nat → IncrementalSorter → Nat
  | 0, _ => 0
  | Nat.succ fuel, s =>
      let idx := s.loop_index
      if s.new_indexes.getD idx 0 = idx then
        let s₁ : IncrementalSorter := { s with loop_index := s.loop_index + 1 }
        if s₁.loop_index = s₁.to_sort.length then 1
        else
          let cp := s₁.new_indexes.getD idx 0
          1 + moveIters fuel
            { s₁ with to_sort := IncrementalSorter.listSwap s₁.to_sort idx cp,
                      new_indexes := IncrementalSorter.listSwap s₁.new_indexes idx cp }
      else
        let cp := s.new_indexes.getD idx 0
        1 + moveIters fuel
          { s with to_sort := IncrementalSorter.listSwap s.to_sort idx cp,
                   new_indexes := IncrementalSorter.listSwap s.new_indexes idx cp }

/-- Number of positions of a target table not yet holding their own index
(part of the Moving-phase termination measure). -/
def unfixedCount (p : List Nat) : Nat :=
  ((Finset.range p.length).filter (fun j => p.getD j 0 ≠ j)).card

/-- Termination measure of the Moving phase: distance of the cursor from the
end plus the number of unfixed table positions.  Every executed loop
iteration strictly decreases it. -/
def moveMeasure (s : IncrementalSorter) : Nat :=
  (s.to_sort.length - s.loop_index) + unfixedCount s.new_indexes

/-- Invariant of the Moving phase relative to the intended final contents
`r`: the target table is a permutation of `[0, n)` fixing the prefix below
the cursor, and placing each current element at its recorded target
reproduces `r`.  Simultaneous swaps preserve it. -/
def MoveInv (r : List Nat) (s : IncrementalSorter) : Prop :=
  s.state = SorterState.MoveItems ∧
  s.new_indexes.length = s.to_sort.length ∧
  r.length = s.to_sort.length ∧
  s.new_indexes.Perm (List.range s.to_sort.length) ∧
  (∀ j, j < s.loop_index → s.new_indexes.getD j 0 = j) ∧
  s.loop_index < s.to_sort.length ∧
  (∀ i, i < s.to_sort.length →
    r.getD (s.new_indexes.getD i 0) 0 = s.to_sort.getD i 0)

/-- Result of the digit passes `d, d+1, …, d+m-1` on `v` (spec §2: the
{Counting, ComputingIndexes, Moving} cycle repeated once per required bit,
least significant first). -/
def passesFrom (v : List Nat) (d : Nat) : Nat → List Nat
  | 0 => v
  | Nat.succ m => passesFrom (stablePartition d v) (d + 1) m

/-- Phase bookkeeping invariant holding in every reachable state: the budget
and buffer length never change, and each phase's cursors describe exactly
the already-scanned prefix. -/
def Inv (l : List Nat) (b : Nat) (s : IncrementalSorter) : Prop :=
  s.iterations_per_call = b ∧
  s.to_sort.length = l.length ∧
  match s.state with
  | SorterState.Unprepared => False
  | SorterState.Counting =>
      s.loop_index ≤ s.to_sort.length ∧
      s.accumulator = cntF s.digit_index (s.to_sort.take s.loop_index) ∧
      s.new_indexes = []
  | SorterState.ComputeIndexes =>
      s.loop_index ≤ s.to_sort.length ∧
      s.accumulator = cntF s.digit_index s.to_sort ∧
      s.new_indexes =
        specTargetTable s.digit_index s.accumulator 0 (s.to_sort.take s.loop_index) ∧
      s.false_count = cntF s.digit_index (s.to_sort.take s.loop_index) ∧
      s.true_count = s.accumulator + cntT s.digit_index (s.to_sort.take s.loop_index)
  | SorterState.MoveItems => True
  | SorterState.Finished => True

/-! ## Preservation lemmas: which fields each phase routine leaves alone -/

namespace IncrementalSorter

theorem pushIndex_state (a : IncrementalSorter) (x : Nat) :
    (pushIndex a x).state = a.state := by
  unfold pushIndex; split <;> rfl

theorem pushIndex_to_sort (a : IncrementalSorter) (x : Nat) :
    (pushIndex a x).to_sort = a.to_sort := by
  unfold pushIndex; split <;> rfl

theorem pushIndex_digit (a : IncrementalSorter) (x : Nat) :
    (pushIndex a x).digit_index = a.digit_index := by
  unfold pushIndex; split <;> rfl

theorem pushIndex_max (a : IncrementalSorter) (x : Nat) :
    (pushIndex a x).max_digit_index = a.max_digit_index := by
  unfold pushIndex; split <;> rfl

theorem pushIndex_acc (a : IncrementalSorter) (x : Nat) :
    (pushIndex a x).accumulator = a.accumulator := by
  unfold pushIndex; split <;> rfl

theorem pushIndex_loop (a : IncrementalSorter) (x : Nat) :
    (pushIndex a x).loop_index = a.loop_index := by
  unfold pushIndex; split <;> rfl

theorem pushIndex_iters (a : IncrementalSorter) (x : Nat) :
    (pushIndex a x).iterations_per_call = a.iterations_per_call := by
  unfold pushIndex; split <;> rfl

theorem foldl_pushIndex_state (w : List Nat) :
    ∀ a : IncrementalSorter, (w.foldl pushIndex a).state = a.state := by
  induction w with
  | nil => intro a; rfl
  | cons x xs ih =>
      intro a
      simpa [List.foldl, pushIndex_state] using ih (pushIndex a x)

theorem foldl_pushIndex_to_sort (w : List Nat) :
    ∀ a : IncrementalSorter, (w.foldl pushIndex a).to_sort = a.to_sort := by
  induction w with
  | nil => intro a; rfl
  | cons x xs ih =>
      intro a
      simpa [List.foldl, pushIndex_to_sort] using ih (pushIndex a x)

theorem foldl_pushIndex_digit (w : List Nat) :
    ∀ a : IncrementalSorter, (w.foldl pushIndex a).digit_index = a.digit_index := by
  induction w with
  | nil => intro a; rfl
  | cons x xs ih =>
      intro a
      simpa [List.foldl, pushIndex_digit] using ih (pushIndex a x)

theorem foldl_pushIndex_max (w : List Nat) :
    ∀ a : IncrementalSorter, (w.foldl pushIndex a).max_digit_index = a.max_digit_index := by
  induction w with
  | nil => intro a; rfl
  | cons x xs ih =>
      intro a
      simpa [List.foldl, pushIndex_max] using ih (pushIndex a x)

theorem foldl_pushIndex_acc (w : List Nat) :
    ∀ a : IncrementalSorter, (w.foldl pushIndex a).accumulator = a.accumulator := by
  induction w with
  | nil => intro a; rfl
  | cons x xs ih =>
      intro a
      simpa [List.foldl, pushIndex_acc] using ih (pushIndex a x)

theorem foldl_pushIndex_iters (w : List Nat) :
    ∀ a : IncrementalSorter,
      (w.foldl pushIndex a).iterations_per_call = a.iterations_per_call := by
  induction w with
  | nil => intro a; rfl
  | cons x xs ih =>
      intro a
      simpa [List.foldl, pushIndex_iters] using ih (pushIndex a x)

theorem compute_indexes_state (s : IncrementalSorter) :
    (compute_indexes s).1.state = s.state := by
  simp [compute_indexes, foldl_pushIndex_state]

theorem compute_indexes_to_sort (s : IncrementalSorter) :
    (compute_indexes s).1.to_sort = s.to_sort := by
  simp [compute_indexes, foldl_pushIndex_to_sort]

theorem bucket_counts_state (s : IncrementalSorter) :
    (bucket_counts s).1.state = s.state := rfl

theorem move_items_loop_state (fuel : Nat) :
    ∀ s : IncrementalSorter, (move_items_loop fuel s).1.state = s.state := by
  induction fuel with
  | zero => intro s; rfl
  | succ fuel ih =>
      intro s
      simp only [move_items_loop]
      split
      · split
        · rfl
        · exact ih _
      · exact ih _

theorem move_items_loop_digit (fuel : Nat) :
    ∀ s : IncrementalSorter, (move_items_loop fuel s).1.digit_index = s.digit_index := by
  induction fuel with
  | zero => intro s; rfl
  | succ fuel ih =>
      intro s
      simp only [move_items_loop]
      split
      · split
        · rfl
        · exact ih _
      · exact ih _

theorem move_items_loop_max (fuel : Nat) :
    ∀ s : IncrementalSorter,
      (move_items_loop fuel s).1.max_digit_index = s.max_digit_index := by
  induction fuel with
  | zero => intro s; rfl
  | succ fuel ih =>
      intro s
      simp only [move_items_loop]
      split
      · split
        · rfl
        · exact ih _
      · exact ih _

theorem move_items_loop_iters (fuel : Nat) :
    ∀ s : IncrementalSorter,
      (move_items_loop fuel s).1.iterations_per_call = s.iterations_per_call := by
  induction fuel with
  | zero => intro s; rfl
  | succ fuel ih =>
      intro s
      simp only [move_items_loop]
      split
      · split
        · rfl
        · exact ih _
      · exact ih _

theorem move_items_state (s : IncrementalSorter) :
    (move_items s).1.state = s.state := move_items_loop_state _ s

end IncrementalSorter

/-! ## Generic facts about runs -/

open IncrementalSorter

/-- Successful `stepN` runs stay within the reachable set. -/
theorem stepN_reachable {l : List Nat} {b : Nat} :
    ∀ (k : Nat) (s s' : IncrementalSorter), ReachableFrom l b s →
      stepN s k = Except.ok s' → ReachableFrom l b s' := by
  intro k
  induction k with
  | zero =>
      intro s s' hs h
      cases h
      exact hs
  | succ k ih =>
      intro s s' hs h
      rw [stepN] at h
      cases hsort : sort s with
      | error e => rw [hsort] at h; cases h
      | ok r =>
          rw [hsort] at h
          exact ih r.1 s' (ReachableFrom.stepped s r.1 r.2 hs (by rw [hsort])) h

/-- States produced by `afterPrepareSteps` are reachable. -/
theorem afterPrepareSteps_reachable {l : List Nat} {b k : Nat}
    {s : IncrementalSorter} (h : afterPrepareSteps l b k = Except.ok s) :
    ReachableFrom l b s := by
  rw [afterPrepareSteps] at h
  cases hp : prepare (with_iterations_per_call l b) with
  | error e => rw [hp] at h; cases h
  | ok s0 =>
      rw [hp] at h
      exact stepN_reachable k s0 s (ReachableFrom.prepared s0 hp) h

/-- Shape of a successful `prepare`: the input must be nonempty, and only
`max_digit_index` and `state` change. -/
theorem prepare_ok_shape {l : List Nat} {b : Nat} {s : IncrementalSorter}
    (h : prepare (with_iterations_per_call l b) = Except.ok s) :
    ∃ flz, (l.map leadingZeros).min? = some flz ∧ l ≠ [] ∧
      s = { with_iterations_per_call l b with
              max_digit_index := totalBits - flz,
              state := SorterState.Counting } := by
  rw [prepare] at h
  simp only [with_iterations_per_call, new] at h
  cases hm : (l.map leadingZeros).min? with
  | none =>
      rw [hm] at h
      cases h
  | some flz =>
      rw [hm] at h
      refine ⟨flz, rfl, ?_, ?_⟩
      · intro hnil
        subst hnil
        simp at hm
      · cases h
        simp [with_iterations_per_call, new]

/-! ## Counting and target-table lemmas -/

theorem cntF_append (d : Nat) (l₁ l₂ : List Nat) :
    cntF d (l₁ ++ l₂) = cntF d l₁ + cntF d l₂ := List.countP_append ..

theorem cntT_append (d : Nat) (l₁ l₂ : List Nat) :
    cntT d (l₁ ++ l₂) = cntT d l₁ + cntT d l₂ := List.countP_append ..

theorem cntF_add_cntT (d : Nat) (l : List Nat) :
    cntF d l + cntT d l = l.length := by
  induction l with
  | nil => rfl
  | cons x xs ih =>
      simp only [cntF, cntT, List.countP_cons, List.length_cons] at ih ⊢
      cases get_bit d x <;> simp <;> omega

/-- Splitting a prefix at the scan window boundary. -/
theorem take_window (v : List Nat) {i stop : Nat} (h : i ≤ stop) :
    v.take stop = v.take i ++ window v i stop := by
  rw [window]
  conv_lhs => rw [show stop = i + (stop - i) from (Nat.add_sub_cancel' h).symm]
  exact List.take_add ..

theorem specTargetTable_length (d : Nat) :
    ∀ (w : List Nat) (tc fc : Nat), (specTargetTable d tc fc w).length = w.length := by
  intro w
  induction w with
  | nil => intro tc fc; rfl
  | cons x xs ih =>
      intro tc fc
      rw [specTargetTable]
      split <;> simp [ih]

theorem specTargetTable_append (d : Nat) :
    ∀ (w₁ w₂ : List Nat) (tc fc : Nat),
      specTargetTable d tc fc (w₁ ++ w₂) =
        specTargetTable d tc fc w₁ ++
          specTargetTable d (tc + cntT d w₁) (fc + cntF d w₁) w₂ := by
  intro w₁
  induction w₁ with
  | nil => intro w₂ tc fc; simp [specTargetTable, cntT, cntF]
  | cons x xs ih =>
      intro w₂ tc fc
      by_cases hb : get_bit d x = true
      · rw [show ((x :: xs) ++ w₂ : List Nat) = x :: (xs ++ w₂) from rfl]
        rw [specTargetTable, if_pos hb]
        conv_rhs => rw [specTargetTable, if_pos hb]
        rw [ih]
        have hT : cntT d (x :: xs) = cntT d xs + 1 := by
          simp [cntT, List.countP_cons, hb]
        have h1 : tc + cntT d (x :: xs) = tc + 1 + cntT d xs := by
          rw [hT]; omega
        have h2 : fc + cntF d (x :: xs) = fc + cntF d xs := by
          simp [cntF, List.countP_cons, hb]
        rw [h1, h2]
        simp
      · rw [show ((x :: xs) ++ w₂ : List Nat) = x :: (xs ++ w₂) from rfl]
        rw [specTargetTable, if_neg hb]
        conv_rhs => rw [specTargetTable, if_neg hb]
        rw [ih]
        have h1 : tc + cntT d (x :: xs) = tc + cntT d xs := by
          simp [cntT, List.countP_cons, hb]
        have hF : cntF d (x :: xs) = cntF d xs + 1 := by
          simp [cntF, List.countP_cons, hb]
        have h2 : fc + cntF d (x :: xs) = fc + 1 + cntF d xs := by
          rw [hF]; omega
        rw [h1, h2]
        simp

theorem specTargetTable_perm (d : Nat) :
    ∀ (w : List Nat) (tc fc : Nat),
      List.Perm (specTargetTable d tc fc w)
        (List.range' fc (cntF d w) ++ List.range' tc (cntT d w)) := by
  intro w
  induction w with
  | nil => intro tc fc; simp [specTargetTable, cntF, cntT]
  | cons x xs ih =>
      intro tc fc
      by_cases hb : get_bit d x = true
      · have hF : cntF d (x :: xs) = cntF d xs := by
          simp [cntF, List.countP_cons, hb]
        have hT : cntT d (x :: xs) = cntT d xs + 1 := by
          simp [cntT, List.countP_cons, hb]
        rw [specTargetTable, if_pos hb, hF, hT, List.range'_succ]
        exact ((ih (tc + 1) fc).cons tc).trans List.perm_middle.symm
      · have hF : cntF d (x :: xs) = cntF d xs + 1 := by
          simp [cntF, List.countP_cons, hb]
        have hT : cntT d (x :: xs) = cntT d xs := by
          simp [cntT, List.countP_cons, hb]
        rw [specTargetTable, if_neg hb, hF, hT, List.range'_succ]
        simpa using (ih tc (fc + 1)).cons fc

/-- With the true cursor frozen at the total bit-0 count and the false cursor
at `0`, the completed target table is a permutation of `[0, n)`. -/
theorem specTargetTable_perm_range (d : Nat) (v : List Nat) :
    List.Perm (specTargetTable d (cntF d v) 0 v) (List.range v.length) := by
  have h := specTargetTable_perm d v (cntF d v) 0
  have hr : List.range' 0 (cntF d v) ++ List.range' (cntF d v) (cntT d v) =
      List.range' 0 (cntF d v + cntT d v) := by
    have := List.range'_append 0 (cntF d v) (cntT d v) 1
    simpa [Nat.add_comm] using this
  rw [hr, cntF_add_cntT, ← List.range_eq_range'] at h
  exact h

/-! ## Effect of one call of each phase routine -/

theorem foldl_pushIndex_spec (w : List Nat) :
    ∀ a : IncrementalSorter,
      (w.foldl pushIndex a).new_indexes =
          a.new_indexes ++
            specTargetTable a.digit_index a.true_count a.false_count w ∧
        (w.foldl pushIndex a).true_count = a.true_count + cntT a.digit_index w ∧
        (w.foldl pushIndex a).false_count = a.false_count + cntF a.digit_index w := by
  induction w with
  | nil => intro a; simp [specTargetTable, cntT, cntF]
  | cons x xs ih =>
      intro a
      by_cases hb : get_bit a.digit_index x = true
      · obtain ⟨h1, h2, h3⟩ := ih (pushIndex a x)
        have hpush : pushIndex a x =
            { a with new_indexes := a.new_indexes ++ [a.true_count],
                     true_count := a.true_count + 1 } := by
          rw [pushIndex, if_pos hb]
        rw [show (x :: xs).foldl pushIndex a = xs.foldl pushIndex (pushIndex a x) from rfl]
        rw [hpush] at h1 h2 h3 ⊢
        dsimp only at h1 h2 h3
        refine ⟨?_, ?_, ?_⟩
        · rw [h1, specTargetTable, if_pos hb]
          simp
        · rw [h2]
          have hT : cntT a.digit_index (x :: xs) = cntT a.digit_index xs + 1 := by
            simp [cntT, List.countP_cons, hb]
          rw [hT]; omega
        · rw [h3]
          simp [cntF, List.countP_cons, hb]
      · obtain ⟨h1, h2, h3⟩ := ih (pushIndex a x)
        have hpush : pushIndex a x =
            { a with new_indexes := a.new_indexes ++ [a.false_count],
                     false_count := a.false_count + 1 } := by
          rw [pushIndex, if_neg hb]
        rw [show (x :: xs).foldl pushIndex a = xs.foldl pushIndex (pushIndex a x) from rfl]
        rw [hpush] at h1 h2 h3 ⊢
        dsimp only at h1 h2 h3
        refine ⟨?_, ?_, ?_⟩
        · rw [h1, specTargetTable, if_neg hb]
          simp
        · rw [h2]
          simp [cntT, List.countP_cons, hb]
        · rw [h3]
          have hF : cntF a.digit_index (x :: xs) = cntF a.digit_index xs + 1 := by
            simp [cntF, List.countP_cons, hb]
          rw [hF]; omega

theorem listSwap_length (l : List Nat) (i j : Nat) :
    (listSwap l i j).length = l.length := by
  simp [listSwap]

theorem move_items_loop_length (fuel : Nat) :
    ∀ s : IncrementalSorter,
      (move_items_loop fuel s).1.to_sort.length = s.to_sort.length := by
  induction fuel with
  | zero => intro s; rfl
  | succ fuel ih =>
      intro s
      simp only [move_items_loop]
      split
      · split
        · rfl
        · rw [ih]
          exact listSwap_length ..
      · rw [ih]
        exact listSwap_length ..

/-! ## The bookkeeping invariant holds in every reachable state -/

theorem Inv_prepare {l : List Nat} {b : Nat} {s : IncrementalSorter}
    (h : prepare (with_iterations_per_call l b) = Except.ok s) : Inv l b s := by
  obtain ⟨flz, hm, hne, rfl⟩ := prepare_ok_shape h
  exact ⟨rfl, rfl, Nat.zero_le _, rfl, rfl⟩

theorem Inv_step {l : List Nat} {b : Nat} {s s' : IncrementalSorter} {r : Bool}
    (hInv : Inv l b s) (h : sort s = Except.ok (s', r)) : Inv l b s' := by
  obtain ⟨hb, hlen, hst⟩ := hInv
  cases hstate : s.state with
  | Unprepared =>
      rw [hstate] at hst
      exact hst.elim
  | Finished => rw [sort, hstate] at h; cases h
  | Counting =>
      rw [hstate] at hst
      obtain ⟨hloop, hacc, hni⟩ := hst
      rw [sort, hstate] at h
      dsimp only [bucket_counts] at h
      split at h
      case isTrue hdone =>
        cases h
        have hstop : min (s.loop_index + s.iterations_per_call) s.to_sort.length =
            s.to_sort.length := by simpa using hdone
        refine ⟨hb, hlen, Nat.zero_le _, ?_, ?_, rfl, ?_⟩
        · show s.accumulator +
              cntF s.digit_index (window s.to_sort s.loop_index
                (min (s.loop_index + s.iterations_per_call) s.to_sort.length)) =
            cntF s.digit_index s.to_sort
          rw [hstop, hacc, ← cntF_append, ← take_window s.to_sort hloop,
            List.take_length]
        · rw [hni]; rfl
        · show s.accumulator + _ = s.accumulator + _ + cntT _ (List.take 0 _)
          simp [cntT]
      case isFalse hdone =>
        cases h
        refine ⟨hb, hlen, ?_⟩
        dsimp only
        rw [hstate]
        have hle : s.loop_index ≤
            min (s.loop_index + s.iterations_per_call) s.to_sort.length :=
          Nat.le_min.mpr ⟨Nat.le_add_right .., hloop⟩
        refine ⟨Nat.min_le_right .., ?_, hni⟩
        show s.accumulator +
            cntF s.digit_index (window s.to_sort s.loop_index
              (min (s.loop_index + s.iterations_per_call) s.to_sort.length)) =
          cntF s.digit_index (s.to_sort.take
            (min (s.loop_index + s.iterations_per_call) s.to_sort.length))
        rw [hacc, ← cntF_append, ← take_window s.to_sort hle]
  | ComputeIndexes =>
      rw [hstate] at hst
      obtain ⟨hloop, hacc, hni, hfc, htc⟩ := hst
      rw [sort, hstate] at h
      dsimp only [compute_indexes] at h
      obtain ⟨hfni, hftc, hffc⟩ := foldl_pushIndex_spec
        (window s.to_sort s.loop_index
          (min (s.loop_index + s.iterations_per_call) s.to_sort.length)) s
      have hle : s.loop_index ≤
          min (s.loop_index + s.iterations_per_call) s.to_sort.length :=
        Nat.le_min.mpr ⟨Nat.le_add_right .., hloop⟩
      split at h
      case isTrue hdone =>
        cases h
        refine ⟨?_, ?_, trivial⟩
        · show (_ : IncrementalSorter).iterations_per_call = b
          rw [foldl_pushIndex_iters]
          exact hb
        · show (_ : IncrementalSorter).to_sort.length = l.length
          rw [foldl_pushIndex_to_sort]
          exact hlen
      case isFalse hdone =>
        cases h
        refine ⟨?_, ?_, ?_⟩
        · show (_ : IncrementalSorter).iterations_per_call = b
          rw [foldl_pushIndex_iters]; exact hb
        · show (_ : IncrementalSorter).to_sort.length = l.length
          rw [foldl_pushIndex_to_sort]; exact hlen
        dsimp only
        rw [foldl_pushIndex_state, hstate]
        refine ⟨?_, ?_, ?_, ?_, ?_⟩
        · rw [foldl_pushIndex_to_sort]
          exact Nat.min_le_right ..
        · rw [foldl_pushIndex_acc, foldl_pushIndex_digit, foldl_pushIndex_to_sort]
          exact hacc
        · rw [hfni, foldl_pushIndex_digit, foldl_pushIndex_acc,
            foldl_pushIndex_to_sort, hni, htc, hfc]
          rw [take_window s.to_sort hle, specTargetTable_append]
          rw [hacc]
          simp
        · rw [hffc, foldl_pushIndex_digit, foldl_pushIndex_to_sort, hfc]
          rw [take_window s.to_sort hle, cntF_append]
        · rw [hftc, foldl_pushIndex_digit, foldl_pushIndex_acc,
            foldl_pushIndex_to_sort, htc]
          rw [take_window s.to_sort hle, cntT_append]
          omega
  | MoveItems =>
      rw [sort, hstate] at h
      dsimp only [move_items] at h
      split at h
      case isTrue hdone =>
        cases h
        refine ⟨(move_items_loop_iters ..).trans hb,
                (move_items_loop_length ..).trans hlen, ?_⟩
        rw [move_items_loop_state, hstate]
        trivial
      case isFalse hdone =>
        split at h
        case isTrue hfin =>
          cases h
          exact ⟨(move_items_loop_iters ..).trans hb,
                 (move_items_loop_length ..).trans hlen, trivial⟩
        case isFalse hfin =>
          cases h
          refine ⟨(move_items_loop_iters ..).trans hb,
                  (move_items_loop_length ..).trans hlen, Nat.zero_le _, ?_, rfl⟩
          simp [cntF]

/-- Every reachable state satisfies the bookkeeping invariant. -/
theorem Inv_holds {l : List Nat} {b : Nat} {s : IncrementalSorter}
    (h : ReachableFrom l b s) : Inv l b s := by
  induction h with
  | prepared s hp => exact Inv_prepare hp
  | stepped s s' r hs hsort ih => exact Inv_step ih hsort

/-! ## Bounds on the work of one call -/

theorem moveIters_le (fuel : Nat) :
    ∀ s : IncrementalSorter, moveIters fuel s ≤ fuel := by
  induction fuel with
  | zero => intro s; exact Nat.le_refl 0
  | succ fuel ih =>
      intro s
      simp only [moveIters]
      split
      · split
        · omega
        · refine Nat.le_trans (Nat.add_le_add_left (ih _) 1) ?_
          omega
      · refine Nat.le_trans (Nat.add_le_add_left (ih _) 1) ?_
        omega

theorem move_items_loop_loop_le (fuel : Nat) :
    ∀ s : IncrementalSorter,
      (move_items_loop fuel s).1.loop_index ≤ s.loop_index + fuel := by
  induction fuel with
  | zero => intro s; exact Nat.le_add_right _ 0
  | succ fuel ih =>
      intro s
      simp only [move_items_loop]
      split
      · split
        · dsimp only
          omega
        · refine Nat.le_trans (ih _) ?_
          dsimp only
          omega
      · refine Nat.le_trans (ih _) ?_
        dsimp only
        omega

/-! ## Claim theorems (first batch) -/

/-- C2 (code bug): the spec requires `prepare()` on the empty sequence to
succeed with `max_digit_index = 0`, but the source computes
`self.to_sort.iter().map(|itm| itm.leading_zeros()).min().unwrap()`, and on
an empty vector `min()` is `None`, so `unwrap()` panics: preparation fails
instead of special-casing the empty input. -/
theorem C2_empty_prepare_panics :
    prepare (new ([] : List Nat)) = Except.error unwrapMsg := rfl

/-- C6: a `sort` (step) call that does not panic returns `true` exactly when
the state it leaves behind is `Finished`.  (Proved for every state, in
particular every reachable one.) -/
theorem C6_step_true_iff_finished (s s' : IncrementalSorter) (r : Bool)
    (h : sort s = Except.ok (s', r)) :
    r = true ↔ s'.state = SorterState.Finished := by
  cases hst : s.state with
  | Unprepared => rw [sort, hst] at h; cases h
  | Finished => rw [sort, hst] at h; cases h
  | Counting =>
      rw [sort, hst] at h
      dsimp only at h
      split at h <;>
        (cases h; simp [bucket_counts_state, hst])
  | ComputeIndexes =>
      rw [sort, hst] at h
      dsimp only at h
      split at h <;>
        (cases h; simp [compute_indexes_state, hst])
  | MoveItems =>
      rw [sort, hst] at h
      dsimp only at h
      split at h
      · cases h; simp [move_items_state, hst]
      · split at h <;> (cases h; simp)

/-- C6 witness: stepping the sorter for `[1]` in its `MoveItems` state
returns `true` and indeed lands in `Finished`. -/
theorem C6_witness :
    sort { iterations_per_call := 32, to_sort := [1],
           state := SorterState.MoveItems, max_digit_index := 1,
           digit_index := 0, new_indexes := [0], loop_index := 0,
           true_count := 1, false_count := 0, accumulator := 0 } =
      Except.ok ({ iterations_per_call := 32, to_sort := [1],
                   state := SorterState.Finished, max_digit_index := 1,
                   digit_index := 1, new_indexes := [0], loop_index := 1,
                   true_count := 1, false_count := 0, accumulator := 0 }, true) ∧
    (true = true ↔
      ({ iterations_per_call := 32, to_sort := [1],
         state := SorterState.Finished, max_digit_index := 1,
         digit_index := 1, new_indexes := [0], loop_index := 1,
         true_count := 1, false_count := 0,
         accumulator := 0 } : IncrementalSorter).state = SorterState.Finished) :=
  ⟨rfl, C6_step_true_iff_finished
    { iterations_per_call := 32, to_sort := [1],
      state := SorterState.MoveItems, max_digit_index := 1,
      digit_index := 0, new_indexes := [0], loop_index := 0,
      true_count := 1, false_count := 0, accumulator := 0 } _ _ rfl⟩

/-- C7 counterexample: the claim says the abort diagnostic identifies the
expected versus the *actual* state.  The source's panic messages are fixed
strings naming only the expected state: calling `prepare` in `Counting` and
in `Finished` produces the identical diagnostic (likewise `sort` in
`Unprepared` and in `Finished`), so the diagnostic cannot identify the
actual state. -/
theorem C7_counterexample :
    prepare { new [5] with state := SorterState.Counting } =
        prepare { new [5] with state := SorterState.Finished } ∧
      prepare { new [5] with state := SorterState.Counting } =
        Except.error prepareMsg ∧
      sort (new [5]) = sort { new [5] with state := SorterState.Finished } ∧
      sort (new [5]) = Except.error sortMsg :=
  ⟨rfl, rfl, rfl, rfl⟩

/-- C7 (amended): calling `prepare()` in any state other than `Unprepared`,
or `sort()` (step) while `Unprepared` or `Finished`, aborts loudly via
`panic!` — modelled as a fatal `Except.error`, never a silent success — with
a fixed diagnostic naming the expected state; the actual state is not part
of the message. -/
theorem C7_misuse_panics (s : IncrementalSorter) :
    (s.state ≠ SorterState.Unprepared → prepare s = Except.error prepareMsg) ∧
    (s.state = SorterState.Unprepared ∨ s.state = SorterState.Finished →
      sort s = Except.error sortMsg) := by
  cases hst : s.state <;> simp [prepare, sort, hst]

/-- C7 witness: both misuse panics at concrete states. -/
theorem C7_witness :
    prepare { new [5] with state := SorterState.Finished } =
        Except.error prepareMsg ∧
      sort (new [5]) = Except.error sortMsg :=
  ⟨(C7_misuse_panics { new [5] with state := SorterState.Finished }).1
      (by intro h; cases h),
   (C7_misuse_panics (new [5])).2 (Or.inl rfl)⟩

/-- C8 counterexample: calling the extraction operation (`get_result`) right
after `prepare` — state `Counting`, far from `Finished` — does *not* trigger
any usage-violation failure: it silently returns the still-unsorted buffer.
The source's `get_result` has no state check at all. -/
theorem C8_counterexample :
    (prepare (new [5, 3])).map
        (fun s => (decide (s.state = SorterState.Finished), get_result s)) =
      Except.ok (false, [5, 3]) := rfl

/-- C8 (amended): `get_result` performs no state check: in every state —
`Finished` or not — it consumes the sorter and returns the current contents
of the buffer (possibly not yet sorted). -/
theorem C8_get_result_unchecked (s : IncrementalSorter) :
    get_result s = s.to_sort := rfl

/-- C9: each `sort` call performs at most the configured iteration budget of
work in its phase: the `Counting` and `ComputeIndexes` scans move the cursor
to exactly `min (loop_index + iterations_per_call) n` (a clamped advance of
at most the budget), and `move_items` executes at most `iterations_per_call`
loop iterations (each with at most one swap), advancing the cursor by at
most the budget. -/
theorem C9_step_work_bounded (s : IncrementalSorter) :
    (bucket_counts s).1.loop_index =
        min (s.loop_index + s.iterations_per_call) s.to_sort.length ∧
      (compute_indexes s).1.loop_index =
        min (s.loop_index + s.iterations_per_call) s.to_sort.length ∧
      moveIters s.iterations_per_call s ≤ s.iterations_per_call ∧
      (move_items s).1.loop_index ≤ s.loop_index + s.iterations_per_call :=
  ⟨rfl, rfl, moveIters_le _ s, move_items_loop_loop_le _ s⟩

/-- C10: with an iteration budget of `0`, every post-`prepare` state is the
post-`prepare` state itself: each `sort` call returns `false` and changes
nothing, and the state remains `Counting` forever — `Finished` is never
reached. -/
theorem C10_zero_budget_stalls (l : List Nat) (s : IncrementalSorter)
    (h : ReachableFrom l 0 s) :
    sort s = Except.ok (s, false) ∧ s.state = SorterState.Counting := by
  induction h with
  | prepared s hp =>
      obtain ⟨flz, hm, hne, rfl⟩ := prepare_ok_shape hp
      have hlen : l.length ≠ 0 := fun h0 => hne (List.length_eq_zero.mp h0)
      constructor
      · simp only [sort, bucket_counts, window, with_iterations_per_call, new]
        simp [Nat.min_def, hlen, List.countP_nil]
        omega
      · rfl
  | stepped s s' r hs hsort ih =>
      rw [ih.1] at hsort
      cases hsort
      exact ih

/-- C10 witness: the budget-0 sorter for `[1]` right after `prepare`. -/
theorem C10_witness :
    sort { iterations_per_call := 0, to_sort := [1],
           state := SorterState.Counting, max_digit_index := 1,
           digit_index := 0, new_indexes := [], loop_index := 0,
           true_count := 0, false_count := 0, accumulator := 0 } =
      Except.ok ({ iterations_per_call := 0, to_sort := [1],
                   state := SorterState.Counting, max_digit_index := 1,
                   digit_index := 0, new_indexes := [], loop_index := 0,
                   true_count := 0, false_count := 0, accumulator := 0 }, false) ∧
    ({ iterations_per_call := 0, to_sort := [1],
       state := SorterState.Counting, max_digit_index := 1,
       digit_index := 0, new_indexes := [], loop_index := 0,
       true_count := 0, false_count := 0,
       accumulator := 0 } : IncrementalSorter).state = SorterState.Counting :=
  C10_zero_budget_stalls [1] _ (ReachableFrom.prepared _ rfl)

/-- C3 counterexample: for the reachable all-zero run, `digit_index` exceeds
`max_digit_index`.  With input `[0]` the prober sets `max_digit_index = 0`,
yet after the first full pass (three steps at budget 32) the sorter is back
in `Counting` with `digit_index = 1 > 0 = max_digit_index`. -/
theorem C3_counterexample :
    (afterPrepareSteps [0] 32 3).map (fun s => (s.digit_index, s.max_digit_index)) =
        Except.ok (1, 0) ∧
      ¬ (∀ (l : List Nat) (b : Nat) (s : IncrementalSorter),
          ReachableFrom l b s → s.digit_index ≤ s.max_digit_index) := by
  constructor
  · rfl
  · intro hclaim
    have hrun : afterPrepareSteps [0] 32 3 =
        Except.ok { iterations_per_call := 32, to_sort := [0],
                    state := SorterState.Counting, max_digit_index := 0,
                    digit_index := 1, new_indexes := [], loop_index := 0,
                    true_count := 1, false_count := 1, accumulator := 0 } := rfl
    have hle := hclaim [0] 32 _ (afterPrepareSteps_reachable hrun)
    exact absurd hle (by decide)

/-- C5: when a reachable `Counting` step reaches the end of the scan (the
call that transitions to `ComputingIndexes`), the accumulator holds the total
number of elements whose bit at `digit_index` is 0, `false_count` is reset to
0, `true_count` is set to the accumulator, and the scan cursor is reset to 0
(the buffer and digit are untouched). -/
theorem C5_counting_completion {l : List Nat} {b : Nat}
    {s s' : IncrementalSorter} {r : Bool}
    (hreach : ReachableFrom l b s) (hstate : s.state = SorterState.Counting)
    (h : sort s = Except.ok (s', r))
    (hdone : s'.state = SorterState.ComputeIndexes) :
    s'.accumulator = cntF s.digit_index s.to_sort ∧
      s'.false_count = 0 ∧
      s'.true_count = s'.accumulator ∧
      s'.loop_index = 0 ∧
      s'.to_sort = s.to_sort ∧
      s'.digit_index = s.digit_index := by
  obtain ⟨hb, hlen, hst⟩ := Inv_holds hreach
  rw [hstate] at hst
  obtain ⟨hloop, hacc, hni⟩ := hst
  rw [sort, hstate] at h
  dsimp only [bucket_counts] at h
  split at h
  case isTrue hdc =>
    cases h
    have hstop : min (s.loop_index + s.iterations_per_call) s.to_sort.length =
        s.to_sort.length := by simpa using hdc
    refine ⟨?_, rfl, rfl, rfl, rfl, rfl⟩
    show s.accumulator +
        cntF s.digit_index (window s.to_sort s.loop_index
          (min (s.loop_index + s.iterations_per_call) s.to_sort.length)) =
      cntF s.digit_index s.to_sort
    rw [hstop, hacc, ← cntF_append, ← take_window s.to_sort hloop,
      List.take_length]
  case isFalse hdc =>
    cases h
    dsimp only at hdone
    rw [hstate] at hdone
    cases hdone

/-- C5 witness: the first step of the sorter for `[2, 1]` (budget 32)
completes the Counting scan; the accumulator ends at `cntF 0 [2,1] = 1`
(element 2 has bit 0 clear), `false_count` at 0, `true_count` at the
accumulator, and the cursor back at 0. -/
theorem C5_witness :
    (1 : Nat) = cntF 0 [2, 1] ∧
      (0 : Nat) = 0 ∧
      (1 : Nat) = (1 : Nat) ∧
      (0 : Nat) = 0 ∧
      ([2, 1] : List Nat) = [2, 1] ∧
      (0 : Nat) = 0 :=
  @C5_counting_completion [2, 1] 32
    { iterations_per_call := 32, to_sort := [2, 1],
      state := SorterState.Counting, max_digit_index := 2, digit_index := 0,
      new_indexes := [], loop_index := 0, true_count := 0, false_count := 0,
      accumulator := 0 }
    { iterations_per_call := 32, to_sort := [2, 1],
      state := SorterState.ComputeIndexes, max_digit_index := 2,
      digit_index := 0, new_indexes := [], loop_index := 0, true_count := 1,
      false_count := 0, accumulator := 1 }
    false (ReachableFrom.prepared _ rfl) rfl rfl rfl

/-- C4: when a reachable `ComputingIndexes` step completes the scan (the
call that transitions to `Moving`), the target-index table has the same
length as the key sequence, is a permutation of `[0, n)`, and equals the
spec's stable-partition assignment: bit-0 elements receive consecutive
targets from 0 in original order, bit-1 elements consecutive targets from
the frozen accumulator (which equals the total bit-0 count) in original
order. -/
theorem C4_compute_indexes_completion {l : List Nat} {b : Nat}
    {s s' : IncrementalSorter} {r : Bool}
    (hreach : ReachableFrom l b s)
    (hstate : s.state = SorterState.ComputeIndexes)
    (h : sort s = Except.ok (s', r))
    (hdone : s'.state = SorterState.MoveItems) :
    s'.new_indexes.length = s'.to_sort.length ∧
      List.Perm s'.new_indexes (List.range s'.to_sort.length) ∧
      s'.new_indexes = specTargetTable s.digit_index s.accumulator 0 s.to_sort ∧
      s.accumulator = cntF s.digit_index s.to_sort ∧
      s'.to_sort = s.to_sort := by
  obtain ⟨hb, hlen, hst⟩ := Inv_holds hreach
  rw [hstate] at hst
  obtain ⟨hloop, hacc, hni, hfc, htc⟩ := hst
  rw [sort, hstate] at h
  dsimp only [compute_indexes] at h
  obtain ⟨hfni, hftc, hffc⟩ := foldl_pushIndex_spec
    (window s.to_sort s.loop_index
      (min (s.loop_index + s.iterations_per_call) s.to_sort.length)) s
  split at h
  case isFalse hdc =>
    cases h
    dsimp only at hdone
    rw [foldl_pushIndex_state, hstate] at hdone
    cases hdone
  case isTrue hdc =>
    cases h
    dsimp only
    have hstop : min (s.loop_index + s.iterations_per_call) s.to_sort.length =
        s.to_sort.length := by simpa using hdc
    have hle : s.loop_index ≤
        min (s.loop_index + s.iterations_per_call) s.to_sort.length :=
      Nat.le_min.mpr ⟨Nat.le_add_right .., hloop⟩
    have hv : s.to_sort = s.to_sort.take
        (min (s.loop_index + s.iterations_per_call) s.to_sort.length) := by
      rw [hstop, List.take_length]
    have htab : (List.foldl pushIndex s
        (window s.to_sort s.loop_index
          (min (s.loop_index + s.iterations_per_call) s.to_sort.length))).new_indexes =
        specTargetTable s.digit_index s.accumulator 0 s.to_sort := by
      rw [hfni, hni, htc, hfc]
      conv_rhs => rw [hv, take_window s.to_sort hle, specTargetTable_append]
      simp
    refine ⟨?_, ?_, htab, hacc, foldl_pushIndex_to_sort ..⟩
    · rw [htab, specTargetTable_length, foldl_pushIndex_to_sort]
    · rw [htab, foldl_pushIndex_to_sort, hacc]
      exact specTargetTable_perm_range ..

/-- C4 witness: for `[2, 1]` (budget 32) the second step completes the
index-computation scan; the table `[0, 1]` has length 2, is a permutation of
`[0, 2)`, and is the stable-partition assignment for digit 0 with the frozen
accumulator 1 = cntF 0 [2,1]. -/
theorem C4_witness :
    ([0, 1] : List Nat).length = ([2, 1] : List Nat).length ∧
      List.Perm ([0, 1] : List Nat) (List.range 2) ∧
      ([0, 1] : List Nat) = specTargetTable 0 1 0 [2, 1] ∧
      (1 : Nat) = cntF 0 [2, 1] ∧
      ([2, 1] : List Nat) = [2, 1] :=
  @C4_compute_indexes_completion [2, 1] 32
    { iterations_per_call := 32, to_sort := [2, 1],
      state := SorterState.ComputeIndexes, max_digit_index := 2,
      digit_index := 0, new_indexes := [], loop_index := 0, true_count := 1,
      false_count := 0, accumulator := 1 }
    { iterations_per_call := 32, to_sort := [2, 1],
      state := SorterState.MoveItems, max_digit_index := 2, digit_index := 0,
      new_indexes := [0, 1], loop_index := 0, true_count := 2,
      false_count := 1, accumulator := 1 }
    false
    (ReachableFrom.stepped _ _ _ (ReachableFrom.prepared _ rfl) rfl)
    rfl rfl rfl

/-- Bit length of a nonzero `usize` value is at least 1. -/
theorem bitLen_pos {x : Nat} (hx : x ≠ 0) : 1 ≤ bitLen x := by
  rw [bitLen, show totalBits = 64 from rfl]
  rw [show (64 : Nat) = Nat.succ 63 from rfl, bitLenAux, if_neg hx]
  omega

/-- Strengthened digit-bound invariant: away from `Finished` the digit is
strictly below the bound; at `Finished` it equals the bound.  Requires an
input with at least one nonzero element (otherwise `max_digit_index = 0` and
the bound fails, see `C3_counterexample`). -/
theorem digit_lt_max_of_reachable {l : List Nat} {b : Nat}
    {s : IncrementalSorter} (hx : ∃ x ∈ l, x ≠ 0) (h : ReachableFrom l b s) :
    (s.state = SorterState.Finished →
        s.digit_index = s.max_digit_index) ∧
      (s.state ≠ SorterState.Finished →
        s.digit_index < s.max_digit_index) := by
  induction h with
  | prepared s hp =>
      obtain ⟨flz, hm, hne, rfl⟩ := prepare_ok_shape hp
      constructor
      · intro hfin
        exact absurd hfin (by simp [with_iterations_per_call, new])
      · intro _
        obtain ⟨x, hxl, hx0⟩ := hx
        have hmem : leadingZeros x ∈ l.map leadingZeros :=
          List.mem_map_of_mem _ hxl
        have hle := (List.min?_eq_some_iff'.mp hm).2 _ hmem
        have hbl : 1 ≤ bitLen x := bitLen_pos hx0
        have hlz : leadingZeros x ≤ 63 := by
          rw [leadingZeros, show totalBits = 64 from rfl]
          omega
        show (0 : Nat) < totalBits - flz
        rw [show totalBits = 64 from rfl]
        omega
  | stepped s s' r hs hsort ih =>
      cases hstate : s.state with
      | Unprepared => rw [sort, hstate] at hsort; cases hsort
      | Finished => rw [sort, hstate] at hsort; cases hsort
      | Counting =>
          have hlt := ih.2 (by rw [hstate]; intro hc; cases hc)
          rw [sort, hstate] at hsort
          dsimp only [bucket_counts] at hsort
          split at hsort
          all_goals cases hsort
          · exact ⟨fun hfin => absurd hfin (by simp), fun _ => hlt⟩
          · refine ⟨fun hfin => absurd hfin ?_, fun _ => hlt⟩
            dsimp only
            rw [hstate]
            simp
      | ComputeIndexes =>
          have hlt := ih.2 (by rw [hstate]; intro hc; cases hc)
          rw [sort, hstate] at hsort
          dsimp only [compute_indexes] at hsort
          split at hsort
          all_goals cases hsort
          · constructor
            · intro hfin
              exact absurd hfin (by simp)
            · intro _
              show (_ : IncrementalSorter).digit_index <
                  (_ : IncrementalSorter).max_digit_index
              rw [foldl_pushIndex_digit, foldl_pushIndex_max]
              exact hlt
          · constructor
            · intro hfin
              refine absurd hfin ?_
              dsimp only
              rw [foldl_pushIndex_state, hstate]
              simp
            · intro _
              show (_ : IncrementalSorter).digit_index <
                  (_ : IncrementalSorter).max_digit_index
              rw [foldl_pushIndex_digit, foldl_pushIndex_max]
              exact hlt
      | MoveItems =>
          have hlt := ih.2 (by rw [hstate]; intro hc; cases hc)
          rw [sort, hstate] at hsort
          dsimp only [move_items] at hsort
          split at hsort
          case isTrue hdone =>
            cases hsort
            refine ⟨fun hfin => absurd hfin ?_, fun _ => ?_⟩
            · dsimp only
              rw [move_items_loop_state, hstate]
              simp
            · show (_ : IncrementalSorter).digit_index <
                  (_ : IncrementalSorter).max_digit_index
              rw [move_items_loop_digit, move_items_loop_max]
              exact hlt
          case isFalse hdone =>
            split at hsort
            case isTrue hfin =>
              cases hsort
              refine ⟨fun _ => ?_, fun hnf => absurd rfl hnf⟩
              dsimp only at hfin ⊢
              exact hfin
            case isFalse hfin =>
              cases hsort
              rw [move_items_loop_digit, move_items_loop_max] at hfin
              refine ⟨fun hc => absurd hc (by simp), fun _ => ?_⟩
              show (move_items_loop s.iterations_per_call s).1.digit_index + 1 <
                  (move_items_loop s.iterations_per_call s).1.max_digit_index
              rw [move_items_loop_digit, move_items_loop_max]
              omega

/-- C3 (amended): for every input containing at least one nonzero element —
excluding the all-zero inputs of `C3_counterexample`, on which the prober
sets `max_digit_index = 0` and the first pass already overshoots it — every
reachable state satisfies `digit_index ≤ max_digit_index`. -/
theorem C3_digit_le_max {l : List Nat} {b : Nat} {s : IncrementalSorter}
    (hx : ∃ x ∈ l, x ≠ 0) (h : ReachableFrom l b s) :
    s.digit_index ≤ s.max_digit_index := by
  obtain ⟨h1, h2⟩ := digit_lt_max_of_reachable hx h
  by_cases hf : s.state = SorterState.Finished
  · exact Nat.le_of_eq (h1 hf)
  · exact Nat.le_of_lt (h2 hf)

/-! ## List indexing and swap lemmas -/

theorem getD_set_self {l : List Nat} {i : Nat} (h : i < l.length) (a : Nat) :
    (l.set i a).getD i 0 = a := by
  rw [List.getD_eq_getElem _ _ (by simpa using h)]
  exact List.getElem_set_self _

theorem getD_set_other {l : List Nat} {i k : Nat} (h : k ≠ i) (a : Nat) :
    (l.set i a).getD k 0 = l.getD k 0 := by
  simp [List.getD_eq_getElem?_getD, List.getElem?_set_ne (Ne.symm h)]

theorem getD_append_left {l₁ l₂ : List Nat} {i : Nat} (h : i < l₁.length)
    (d : Nat) : (l₁ ++ l₂).getD i d = l₁.getD i d := by
  simp [List.getD_eq_getElem?_getD, List.getElem?_append_left h]

theorem getD_append_right (l₁ l₂ : List Nat) (j d : Nat) :
    (l₁ ++ l₂).getD (l₁.length + j) d = l₂.getD j d := by
  simp [List.getD_eq_getElem?_getD,
    List.getElem?_append_right (Nat.le_add_right ..)]

theorem range_getD {n i : Nat} (h : i < n) : (List.range n).getD i 0 = i := by
  simp [List.getD_eq_getElem?_getD, List.getElem?_range h]

theorem ext_getD {l₁ l₂ : List Nat} (h : l₁.length = l₂.length)
    (he : ∀ i, i < l₁.length → l₁.getD i 0 = l₂.getD i 0) : l₁ = l₂ := by
  apply List.ext_getElem h
  intro i h1 h2
  have := he i h1
  rwa [List.getD_eq_getElem _ _ h1, List.getD_eq_getElem _ _ h2] at this

theorem getD_mem {l : List Nat} {i : Nat} (h : i < l.length) :
    l.getD i 0 ∈ l := by
  rw [List.getD_eq_getElem _ _ h]
  exact List.getElem_mem h

theorem set_getD_self {l : List Nat} {i : Nat} (h : i < l.length) :
    l.set i (l.getD i 0) = l := by
  apply ext_getD (by simp)
  intro k hk
  rw [List.length_set] at hk
  by_cases hki : k = i
  · subst hki
    exact getD_set_self hk _
  · exact getD_set_other hki _

theorem listSwap_getD_fst {l : List Nat} {i j : Nat} (hi : i < l.length)
    (hij : i ≠ j) : (listSwap l i j).getD i 0 = l.getD j 0 := by
  rw [listSwap, getD_set_other hij, getD_set_self hi]

theorem listSwap_getD_snd {l : List Nat} {i j : Nat} (hj : j < l.length) :
    (listSwap l i j).getD j 0 = l.getD i 0 := by
  rw [listSwap, getD_set_self (by simpa using hj)]

theorem listSwap_getD_other {l : List Nat} {i j k : Nat} (hk1 : k ≠ i)
    (hk2 : k ≠ j) : (listSwap l i j).getD k 0 = l.getD k 0 := by
  rw [listSwap, getD_set_other hk2, getD_set_other hk1]

theorem listSwap_self {l : List Nat} {i : Nat} (h : i < l.length) :
    listSwap l i i = l := by
  rw [listSwap, List.set_set, set_getD_self h]

theorem cons_set_perm : ∀ (xs : List Nat) (j x : Nat), j < xs.length →
    List.Perm (xs.getD j 0 :: xs.set j x) (x :: xs) := by
  intro xs
  induction xs with
  | nil => intro j x h; exact absurd h (by simp)
  | cons z zs ih =>
      intro j x h
      cases j with
      | zero => exact List.Perm.swap ..
      | succ m =>
          have hm : m < zs.length := by simpa using h
          show List.Perm (zs.getD m 0 :: z :: zs.set m x) (x :: z :: zs)
          exact (List.Perm.swap ..).trans
            (((ih m x hm).cons z).trans (List.Perm.swap ..))

theorem listSwap_perm : ∀ (l : List Nat) (i j : Nat),
    i < l.length → j < l.length → List.Perm (listSwap l i j) l := by
  intro l
  induction l with
  | nil => intro i j hi _; exact absurd hi (by simp)
  | cons x xs ih =>
      intro i j hi hj
      cases i with
      | zero =>
          cases j with
          | zero =>
              rw [show listSwap (x :: xs) 0 0 = x :: xs from rfl]
          | succ m =>
              have hm : m < xs.length := by simpa using hj
              rw [show listSwap (x :: xs) 0 (m + 1) =
                  xs.getD m 0 :: xs.set m x from rfl]
              exact cons_set_perm xs m x hm
      | succ m =>
          cases j with
          | zero =>
              have hm : m < xs.length := by simpa using hi
              rw [show listSwap (x :: xs) (m + 1) 0 =
                  xs.getD m 0 :: xs.set m x from rfl]
              exact cons_set_perm xs m x hm
          | succ k =>
              have hm : m < xs.length := by simpa using hi
              have hk : k < xs.length := by simpa using hj
              rw [show listSwap (x :: xs) (m + 1) (k + 1) =
                  x :: listSwap xs m k from rfl]
              exact (ih m k hm hk).cons x

/-! ## Running a scan phase to completion -/

/-- Unfolding of `stepN` at a successor written with `+ 1`. -/
theorem stepN_succ (s : IncrementalSorter) (k : Nat) :
    stepN s (k + 1) =
      match sort s with
      | Except.ok r => stepN r.1 k
      | Except.error e => Except.error e := rfl

theorem stepN_trans : ∀ (a : Nat) {b : Nat} {s t u : IncrementalSorter},
    stepN s a = Except.ok t → stepN t b = Except.ok u →
    stepN s (a + b) = Except.ok u := by
  intro a
  induction a with
  | zero =>
      intro b s t u h1 h2
      cases h1
      simpa using h2
  | succ a ih =>
      intro b s t u h1 h2
      rw [stepN] at h1
      rw [show a + 1 + b = (a + b) + 1 from by omega, stepN_succ]
      cases hsort : sort s with
      | error e => rw [hsort] at h1; cases h1
      | ok r =>
          rw [hsort] at h1
          exact ih h1 h2

theorem drop_window (v : List Nat) {i stop : Nat} (h : i ≤ stop) :
    v.drop i = window v i stop ++ v.drop stop := by
  rw [window]
  conv_lhs => rw [← List.take_append_drop (stop - i) (v.drop i)]
  rw [List.drop_drop, Nat.add_sub_cancel' h]

theorem window_to_end (v : List Nat) (i : Nat) :
    window v i v.length = v.drop i := by
  rw [window, show v.length - i = (v.drop i).length from (List.length_drop ..).symm,
    List.take_length]

/-- Running `sort` from any `Counting` state with positive budget reaches, in
finitely many calls, the `ComputeIndexes` transition state: the accumulator
has gained the bit-0 count of the unscanned suffix, `false_count` is 0 and
`true_count` equals the final accumulator. -/
theorem counting_runs : ∀ (n : Nat) (s : IncrementalSorter),
    s.state = SorterState.Counting →
    1 ≤ s.iterations_per_call →
    s.loop_index ≤ s.to_sort.length →
    s.to_sort.length - s.loop_index ≤ n →
    ∃ k s', stepN s k = Except.ok s' ∧
      s' = { s with
        state := SorterState.ComputeIndexes,
        loop_index := 0,
        false_count := 0,
        accumulator :=
          s.accumulator + cntF s.digit_index (s.to_sort.drop s.loop_index),
        true_count :=
          s.accumulator + cntF s.digit_index (s.to_sort.drop s.loop_index) } := by
  intro n
  induction n with
  | zero =>
      intro s hstate hb hloop hn
      have hstop : s.loop_index = s.to_sort.length := by omega
      have hcond : (min (s.loop_index + s.iterations_per_call)
          s.to_sort.length == s.to_sort.length) = true := by
        simp
        omega
      refine ⟨1, _, ?_, rfl⟩
      rw [show (1 : Nat) = 0 + 1 from rfl, stepN_succ, sort, hstate]
      dsimp only [bucket_counts]
      rw [hcond]
      simp only [if_true, stepN]
      have hw : window s.to_sort s.loop_index
          (min (s.loop_index + s.iterations_per_call) s.to_sort.length) =
          s.to_sort.drop s.loop_index := by
        rw [show min (s.loop_index + s.iterations_per_call) s.to_sort.length =
            s.to_sort.length from by omega]
        exact window_to_end ..
      rw [hw]
      rfl
  | succ n ih =>
      intro s hstate hb hloop hn
      by_cases hstop : min (s.loop_index + s.iterations_per_call)
          s.to_sort.length = s.to_sort.length
      · have hcond : (min (s.loop_index + s.iterations_per_call)
            s.to_sort.length == s.to_sort.length) = true := by simp [hstop]
        refine ⟨1, _, ?_, rfl⟩
        rw [show (1 : Nat) = 0 + 1 from rfl, stepN_succ, sort, hstate]
        dsimp only [bucket_counts]
        rw [hcond]
        simp only [if_true, stepN]
        have hw : window s.to_sort s.loop_index
            (min (s.loop_index + s.iterations_per_call) s.to_sort.length) =
            s.to_sort.drop s.loop_index := by
          rw [hstop]
          exact window_to_end ..
        rw [hw]
        rfl
      · -- the scan continues: the cursor lands strictly between
        have hlt : s.loop_index + s.iterations_per_call < s.to_sort.length := by
          rcases Nat.lt_or_ge (s.loop_index + s.iterations_per_call)
            s.to_sort.length with hc | hc
          · exact hc
          · exact absurd (Nat.min_eq_right hc) hstop
        have hstopv : min (s.loop_index + s.iterations_per_call)
            s.to_sort.length = s.loop_index + s.iterations_per_call :=
          Nat.min_eq_left (Nat.le_of_lt hlt)
        have hcond : (min (s.loop_index + s.iterations_per_call)
            s.to_sort.length == s.to_sort.length) = false := by
          simp [hstop]
        have hsort : sort s = Except.ok
            ({ s with
               accumulator := s.accumulator + cntF s.digit_index
                 (window s.to_sort s.loop_index
                   (min (s.loop_index + s.iterations_per_call) s.to_sort.length)),
               loop_index :=
                 min (s.loop_index + s.iterations_per_call) s.to_sort.length },
             false) := by
          rw [sort, hstate]
          dsimp only [bucket_counts]
          rw [hcond, hstate]
          rfl
        obtain ⟨k', s'', hstep, hs''⟩ := ih
          { s with
            accumulator := s.accumulator + cntF s.digit_index
              (window s.to_sort s.loop_index
                (min (s.loop_index + s.iterations_per_call) s.to_sort.length)),
            loop_index :=
              min (s.loop_index + s.iterations_per_call) s.to_sort.length }
          hstate hb (by dsimp only; omega) (by dsimp only; omega)
        refine ⟨k' + 1, s'', ?_, ?_⟩
        · rw [stepN_succ, hsort]
          exact hstep
        · rw [hs'']
          have hile : s.loop_index ≤
              min (s.loop_index + s.iterations_per_call) s.to_sort.length := by
            omega
          have hsplit : cntF s.digit_index (s.to_sort.drop s.loop_index) =
              cntF s.digit_index (window s.to_sort s.loop_index
                (min (s.loop_index + s.iterations_per_call) s.to_sort.length)) +
              cntF s.digit_index (s.to_sort.drop
                (min (s.loop_index + s.iterations_per_call) s.to_sort.length)) := by
            rw [← cntF_append, ← drop_window s.to_sort hile]
          ext <;> dsimp only <;> first
            | rfl
            | omega

/-- Running `sort` from any `ComputeIndexes` state with positive budget
reaches, in finitely many calls, the `MoveItems` transition state: the
target table has gained the assignments of the unscanned suffix, with the
running cursors advanced accordingly. -/
theorem compute_runs : ∀ (n : Nat) (s : IncrementalSorter),
    s.state = SorterState.ComputeIndexes →
    1 ≤ s.iterations_per_call →
    s.loop_index ≤ s.to_sort.length →
    s.to_sort.length - s.loop_index ≤ n →
    ∃ k s', stepN s k = Except.ok s' ∧
      s' = { s with
        state := SorterState.MoveItems,
        loop_index := 0,
        new_indexes := s.new_indexes ++
          specTargetTable s.digit_index s.true_count s.false_count
            (s.to_sort.drop s.loop_index),
        true_count :=
          s.true_count + cntT s.digit_index (s.to_sort.drop s.loop_index),
        false_count :=
          s.false_count + cntF s.digit_index (s.to_sort.drop s.loop_index) } := by
  intro n
  induction n with
  | zero =>
      intro s hstate hb hloop hn
      have hcond : (min (s.loop_index + s.iterations_per_call)
          s.to_sort.length == s.to_sort.length) = true := by
        simp
        omega
      obtain ⟨hfni, hftc, hffc⟩ := foldl_pushIndex_spec
        (s.to_sort.drop s.loop_index) s
      have hw : window s.to_sort s.loop_index
          (min (s.loop_index + s.iterations_per_call) s.to_sort.length) =
          s.to_sort.drop s.loop_index := by
        rw [show min (s.loop_index + s.iterations_per_call) s.to_sort.length =
            s.to_sort.length from by omega]
        exact window_to_end ..
      refine ⟨1, _, ?_, rfl⟩
      rw [show (1 : Nat) = 0 + 1 from rfl, stepN_succ, sort, hstate]
      dsimp only [compute_indexes]
      rw [hcond]
      simp only [if_true, stepN]
      rw [hw]
      congr 1
      ext1 <;> dsimp only <;>
        first
          | rfl
          | exact foldl_pushIndex_iters ..
          | exact foldl_pushIndex_to_sort ..
          | exact foldl_pushIndex_max ..
          | exact foldl_pushIndex_digit ..
          | exact foldl_pushIndex_acc ..
          | exact hfni
          | exact hftc
          | exact hffc
  | succ n ih =>
      intro s hstate hb hloop hn
      by_cases hstop : min (s.loop_index + s.iterations_per_call)
          s.to_sort.length = s.to_sort.length
      · have hcond : (min (s.loop_index + s.iterations_per_call)
            s.to_sort.length == s.to_sort.length) = true := by simp [hstop]
        obtain ⟨hfni, hftc, hffc⟩ := foldl_pushIndex_spec
          (s.to_sort.drop s.loop_index) s
        have hw : window s.to_sort s.loop_index
            (min (s.loop_index + s.iterations_per_call) s.to_sort.length) =
            s.to_sort.drop s.loop_index := by
          rw [hstop]
          exact window_to_end ..
        refine ⟨1, _, ?_, rfl⟩
        rw [show (1 : Nat) = 0 + 1 from rfl, stepN_succ, sort, hstate]
        dsimp only [compute_indexes]
        rw [hcond]
        simp only [if_true, stepN]
        rw [hw]
        congr 1
        ext1 <;> dsimp only <;>
          first
            | rfl
            | exact foldl_pushIndex_iters ..
            | exact foldl_pushIndex_to_sort ..
            | exact foldl_pushIndex_max ..
            | exact foldl_pushIndex_digit ..
            | exact foldl_pushIndex_acc ..
            | exact hfni
            | exact hftc
            | exact hffc
      · have hlt : s.loop_index + s.iterations_per_call < s.to_sort.length := by
          rcases Nat.lt_or_ge (s.loop_index + s.iterations_per_call)
            s.to_sort.length with hc | hc
          · exact hc
          · exact absurd (Nat.min_eq_right hc) hstop
        have hile : s.loop_index ≤
            min (s.loop_index + s.iterations_per_call) s.to_sort.length := by
          omega
        have hcond : (min (s.loop_index + s.iterations_per_call)
            s.to_sort.length == s.to_sort.length) = false := by simp [hstop]
        obtain ⟨hfni, hftc, hffc⟩ := foldl_pushIndex_spec
          (window s.to_sort s.loop_index
            (min (s.loop_index + s.iterations_per_call) s.to_sort.length)) s
        have hsort : sort s = Except.ok
            ({ (window s.to_sort s.loop_index
                  (min (s.loop_index + s.iterations_per_call)
                    s.to_sort.length)).foldl pushIndex s with
               loop_index :=
                 min (s.loop_index + s.iterations_per_call) s.to_sort.length },
             false) := by
          rw [sort, hstate]
          dsimp only [compute_indexes]
          rw [hcond]
          rfl
        obtain ⟨k', s'', hstep, hs''⟩ := ih
          { (window s.to_sort s.loop_index
              (min (s.loop_index + s.iterations_per_call)
                s.to_sort.length)).foldl pushIndex s with
            loop_index :=
              min (s.loop_index + s.iterations_per_call) s.to_sort.length }
          (by dsimp only; rw [foldl_pushIndex_state]; exact hstate)
          (by dsimp only; rw [foldl_pushIndex_iters]; exact hb)
          (by dsimp only; rw [foldl_pushIndex_to_sort]; exact Nat.min_le_right ..)
          (by dsimp only; rw [foldl_pushIndex_to_sort]; omega)
        refine ⟨k' + 1, s'', ?_, ?_⟩
        · rw [stepN_succ, hsort]
          exact hstep
        · rw [hs'']
          have hT : cntT s.digit_index (s.to_sort.drop s.loop_index) =
              cntT s.digit_index (window s.to_sort s.loop_index
                (min (s.loop_index + s.iterations_per_call) s.to_sort.length)) +
              cntT s.digit_index (s.to_sort.drop
                (min (s.loop_index + s.iterations_per_call) s.to_sort.length)) := by
            rw [← cntT_append, ← drop_window s.to_sort hile]
          have hF : cntF s.digit_index (s.to_sort.drop s.loop_index) =
              cntF s.digit_index (window s.to_sort s.loop_index
                (min (s.loop_index + s.iterations_per_call) s.to_sort.length)) +
              cntF s.digit_index (s.to_sort.drop
                (min (s.loop_index + s.iterations_per_call) s.to_sort.length)) := by
            rw [← cntF_append, ← drop_window s.to_sort hile]
          ext1 <;> dsimp only <;>
            first
              | rfl
              | exact foldl_pushIndex_iters ..
              | exact foldl_pushIndex_to_sort ..
              | exact foldl_pushIndex_max ..
              | exact foldl_pushIndex_digit ..
              | exact foldl_pushIndex_acc ..
              | (rw [hftc, foldl_pushIndex_digit, foldl_pushIndex_to_sort, hT]
                 omega)
              | (rw [hffc, foldl_pushIndex_digit, foldl_pushIndex_to_sort, hF]
                 omega)
              | (rw [hfni, hftc, hffc, foldl_pushIndex_digit,
                   foldl_pushIndex_to_sort]
                 conv_rhs => rw [drop_window s.to_sort hile, specTargetTable_append]
                 rw [List.append_assoc])

/-! ## Placement: the completed table sends each element to its slot of the
stable partition -/

/-- Rank indexing into a filter: the element at position `i` (satisfying
`p`) sits in `l.filter p` at the index given by its rank among the matches
of the prefix. -/
theorem filter_rank (p : Nat → Bool) :
    ∀ (l : List Nat) (i : Nat), i < l.length → p (l.getD i 0) = true →
      (l.filter p).getD ((l.take i).countP p) 0 = l.getD i 0 := by
  intro l
  induction l with
  | nil => intro i h _; exact absurd h (by simp)
  | cons x xs ih =>
      intro i hi hp
      cases i with
      | zero =>
          have hpx : p x = true := hp
          rw [List.filter_cons_of_pos hpx]
          rfl
      | succ m =>
          have hm : m < xs.length := by simpa using hi
          have hp' : p (xs.getD m 0) = true := hp
          by_cases hpx : p x = true
          · have hc : ((x :: xs).take (m + 1)).countP p =
                (xs.take m).countP p + 1 := by
              simp [List.take_succ_cons, List.countP_cons, hpx]
            rw [List.filter_cons_of_pos hpx, hc]
            rw [show (x :: xs.filter p).getD ((xs.take m).countP p + 1) 0 =
                (xs.filter p).getD ((xs.take m).countP p) 0 from rfl]
            exact ih m hm hp'
          · have hc : ((x :: xs).take (m + 1)).countP p =
                (xs.take m).countP p := by
              simp [List.take_succ_cons, List.countP_cons, hpx]
            rw [List.filter_cons_of_neg hpx, hc]
            exact ih m hm hp'

/-- Closed form of one entry of the target table. -/
theorem specTargetTable_getD (d : Nat) :
    ∀ (v : List Nat) (tc fc i : Nat), i < v.length →
      (specTargetTable d tc fc v).getD i 0 =
        if get_bit d (v.getD i 0) then tc + cntT d (v.take i)
        else fc + cntF d (v.take i) := by
  intro v
  induction v with
  | nil => intro tc fc i h; exact absurd h (by simp)
  | cons x xs ih =>
      intro tc fc i hi
      cases i with
      | zero =>
          by_cases hb : get_bit d x = true
          · rw [specTargetTable, if_pos hb,
              show (x :: xs).getD 0 0 = x from rfl, if_pos hb]
            simp [cntT]
          · rw [specTargetTable, if_neg hb,
              show (x :: xs).getD 0 0 = x from rfl, if_neg hb]
            simp [cntF]
      | succ m =>
          have hm : m < xs.length := by simpa using hi
          by_cases hb : get_bit d x = true
          · rw [specTargetTable, if_pos hb]
            rw [show (tc :: specTargetTable d (tc + 1) fc xs).getD (m + 1) 0 =
                (specTargetTable d (tc + 1) fc xs).getD m 0 from rfl]
            rw [ih (tc + 1) fc m hm]
            have hT : cntT d ((x :: xs).take (m + 1)) = cntT d (xs.take m) + 1 := by
              simp [cntT, List.take_succ_cons, List.countP_cons, hb]
            have hF : cntF d ((x :: xs).take (m + 1)) = cntF d (xs.take m) := by
              simp [cntF, List.take_succ_cons, List.countP_cons, hb]
            rw [show (x :: xs).getD (m + 1) 0 = xs.getD m 0 from rfl, hT, hF]
            split <;> omega
          · rw [specTargetTable, if_neg hb]
            rw [show (fc :: specTargetTable d tc (fc + 1) xs).getD (m + 1) 0 =
                (specTargetTable d tc (fc + 1) xs).getD m 0 from rfl]
            rw [ih tc (fc + 1) m hm]
            have hT : cntT d ((x :: xs).take (m + 1)) = cntT d (xs.take m) := by
              simp [cntT, List.take_succ_cons, List.countP_cons, hb]
            have hF : cntF d ((x :: xs).take (m + 1)) = cntF d (xs.take m) + 1 := by
              simp [cntF, List.take_succ_cons, List.countP_cons, hb]
            rw [show (x :: xs).getD (m + 1) 0 = xs.getD m 0 from rfl, hT, hF]
            split <;> omega

theorem stablePartition_length (d : Nat) (v : List Nat) :
    (stablePartition d v).length = v.length := by
  rw [stablePartition, List.length_append, ← List.countP_eq_length_filter,
    ← List.countP_eq_length_filter]
  exact cntF_add_cntT d v

theorem stablePartition_perm (d : Nat) (v : List Nat) :
    List.Perm (stablePartition d v) v := by
  rw [stablePartition]
  have h := List.filter_append_perm (fun x => !get_bit d x) v
  simpa using h

theorem one_take_drop (v : List Nat) {i : Nat} (hi : i < v.length) :
    window v i (i + 1) = [v.getD i 0] := by
  rw [window, show i + 1 - i = 1 from by omega, List.drop_eq_getElem_cons hi,
    show (v[i] :: v.drop (i + 1)).take 1 = [v[i]] from rfl,
    List.getD_eq_getElem _ _ hi]

/-- Key placement lemma: moving each element to its table target produces
exactly the stable partition. -/
theorem stablePartition_placed (d : Nat) (v : List Nat) {i : Nat}
    (hi : i < v.length) :
    (stablePartition d v).getD
        ((specTargetTable d (cntF d v) 0 v).getD i 0) 0 = v.getD i 0 := by
  rw [specTargetTable_getD d v _ _ i hi]
  by_cases hb : get_bit d (v.getD i 0) = true
  · rw [if_pos hb, stablePartition]
    have hlenF : (v.filter (fun x => !get_bit d x)).length = cntF d v :=
      (List.countP_eq_length_filter ..).symm
    rw [← hlenF, getD_append_right]
    exact filter_rank (fun x => get_bit d x) v i hi hb
  · have hbf : get_bit d (v.getD i 0) = false := by
      revert hb
      cases get_bit d (v.getD i 0) <;> simp
    have hbf' : get_bit d (v[i]?.getD 0) = false := by simpa using hbf
    rw [if_neg hb, stablePartition, Nat.zero_add]
    have hs2 : cntF d (v.take (i + 1)) = cntF d (v.take i) + 1 := by
      rw [take_window v (Nat.le_succ i), one_take_drop v hi, cntF_append]
      simp [cntF, hbf, hbf']
    have hsplit : cntF d v = cntF d (v.take (i + 1)) + cntF d (v.drop (i + 1)) := by
      rw [← cntF_append, List.take_append_drop]
    have hlt : cntF d (v.take i) < (v.filter (fun x => !get_bit d x)).length := by
      rw [← List.countP_eq_length_filter]
      show cntF d (v.take i) < cntF d v
      omega
    rw [getD_append_left hlt]
    exact filter_rank (fun x => !get_bit d x) v i hi (by simp [hbf, hbf'])

/-! ## The Moving phase: cycle-following swaps -/

theorem nodup_getD_inj {p : List Nat} (hnd : p.Nodup) {j k : Nat}
    (hj : j < p.length) (hk : k < p.length)
    (he : p.getD j 0 = p.getD k 0) : j = k := by
  rw [List.getD_eq_getElem _ _ hj, List.getD_eq_getElem _ _ hk] at he
  exact (hnd.getElem_inj_iff).mp he

/-- A genuine swap (source and destination differ, destination not yet
fixed) strictly decreases the number of unfixed table positions: the
destination becomes fixed and every other position is unchanged. -/
theorem unfixedCount_decrease {p : List Nat} {i cp : Nat}
    (hi : i < p.length) (hcp : cp < p.length) (hicp : i ≠ cp)
    (hpi : p.getD i 0 = cp) (hpcp : p.getD cp 0 ≠ cp) :
    unfixedCount (listSwap p i cp) < unfixedCount p := by
  have hlen : (listSwap p i cp).length = p.length := listSwap_length ..
  rw [unfixedCount, unfixedCount, hlen]
  have hsub : (Finset.range p.length).filter
        (fun j => (listSwap p i cp).getD j 0 ≠ j) ⊆
      ((Finset.range p.length).filter (fun j => p.getD j 0 ≠ j)).erase cp := by
    intro j hj
    rw [Finset.mem_filter, Finset.mem_range] at hj
    obtain ⟨hjn, hne⟩ := hj
    have hjcp : j ≠ cp := by
      intro hrfl
      subst hrfl
      exact hne (by rw [listSwap_getD_snd hcp, hpi])
    rw [Finset.mem_erase, Finset.mem_filter, Finset.mem_range]
    refine ⟨hjcp, hjn, ?_⟩
    by_cases hji : j = i
    · subst hji
      rw [hpi]
      exact fun h => hicp h.symm
    · rw [listSwap_getD_other hji hjcp] at hne
      exact hne
  have hmem : cp ∈ (Finset.range p.length).filter (fun j => p.getD j 0 ≠ j) := by
    rw [Finset.mem_filter, Finset.mem_range]
    exact ⟨hcp, hpcp⟩
  exact Nat.lt_of_le_of_lt (Finset.card_le_card hsub)
    (Finset.card_erase_lt_of_mem hmem)

/-- One real swap iteration of the Moving loop preserves the phase invariant
and strictly decreases the measure. -/
theorem moveInv_swap {r : List Nat} {s : IncrementalSorter}
    (hInv : MoveInv r s)
    (hne : s.new_indexes.getD s.loop_index 0 ≠ s.loop_index) :
    MoveInv r { s with
      to_sort := listSwap s.to_sort s.loop_index
        (s.new_indexes.getD s.loop_index 0),
      new_indexes := listSwap s.new_indexes s.loop_index
        (s.new_indexes.getD s.loop_index 0) } ∧
    moveMeasure { s with
      to_sort := listSwap s.to_sort s.loop_index
        (s.new_indexes.getD s.loop_index 0),
      new_indexes := listSwap s.new_indexes s.loop_index
        (s.new_indexes.getD s.loop_index 0) } < moveMeasure s := by
  obtain ⟨hstate, hplen, hrlen, hperm, hpref, hloop, hplaced⟩ := hInv
  have hpl : s.loop_index < s.new_indexes.length := by omega
  have hnd : s.new_indexes.Nodup :=
    hperm.nodup_iff.mpr (List.nodup_range _)
  have hcpmem : s.new_indexes.getD s.loop_index 0 ∈ s.new_indexes :=
    getD_mem hpl
  have hcp : s.new_indexes.getD s.loop_index 0 < s.to_sort.length := by
    have := hperm.mem_iff.mp hcpmem
    simpa using this
  have hcpl : s.new_indexes.getD s.loop_index 0 < s.new_indexes.length := by
    omega
  have hicp : s.loop_index ≠ s.new_indexes.getD s.loop_index 0 :=
    fun h => hne h.symm
  have hpcp : s.new_indexes.getD (s.new_indexes.getD s.loop_index 0) 0 ≠
      s.new_indexes.getD s.loop_index 0 := by
    intro h
    exact hne (nodup_getD_inj hnd hcpl hpl h)
  have hcpge : ¬ s.new_indexes.getD s.loop_index 0 < s.loop_index := by
    intro hlt
    exact hpcp (hpref _ hlt)
  refine ⟨⟨hstate, ?_, ?_, ?_, ?_, ?_, ?_⟩, ?_⟩
  · show (listSwap s.new_indexes ..).length = (listSwap s.to_sort ..).length
    rw [listSwap_length, listSwap_length, hplen]
  · show r.length = (listSwap s.to_sort ..).length
    rw [listSwap_length, hrlen]
  · show List.Perm (listSwap s.new_indexes ..)
      (List.range (listSwap s.to_sort ..).length)
    rw [listSwap_length]
    exact (listSwap_perm _ _ _ hpl hcpl).trans hperm
  · intro j hj
    have hj' : j < s.loop_index := hj
    show (listSwap s.new_indexes ..).getD j 0 = j
    rw [listSwap_getD_other (by omega) (by omega)]
    exact hpref j hj'
  · show s.loop_index < (listSwap s.to_sort ..).length
    rw [listSwap_length]
    exact hloop
  · intro k hk
    rw [listSwap_length] at hk
    by_cases hki : k = s.loop_index
    · subst hki
      rw [listSwap_getD_fst hpl hicp, listSwap_getD_fst (by omega) hicp]
      exact hplaced _ hcp
    · by_cases hkcp : k = s.new_indexes.getD s.loop_index 0
      · subst hkcp
        rw [listSwap_getD_snd hcpl, listSwap_getD_snd (by omega)]
        exact hplaced _ hloop
      · rw [listSwap_getD_other hki hkcp, listSwap_getD_other hki hkcp]
        exact hplaced _ hk
  · show (listSwap s.to_sort ..).length - s.loop_index +
        unfixedCount (listSwap s.new_indexes ..) <
      s.to_sort.length - s.loop_index + unfixedCount s.new_indexes
    rw [listSwap_length]
    have := unfixedCount_decrease hpl hcpl hicp rfl hpcp
    omega

/-- A fixed-point iteration that has not reached the end merely advances the
cursor (its swap is the identity), preserving the invariant and strictly
decreasing the measure. -/
theorem moveInv_advance {r : List Nat} {s : IncrementalSorter}
    (hInv : MoveInv r s)
    (heq : s.new_indexes.getD s.loop_index 0 = s.loop_index)
    (hnotend : s.loop_index + 1 ≠ s.to_sort.length) :
    MoveInv r { s with loop_index := s.loop_index + 1 } ∧
    moveMeasure { s with loop_index := s.loop_index + 1 } < moveMeasure s := by
  obtain ⟨hstate, hplen, hrlen, hperm, hpref, hloop, hplaced⟩ := hInv
  refine ⟨⟨hstate, hplen, hrlen, hperm, ?_, ?_, hplaced⟩, ?_⟩
  · intro j hj
    have hj' : j < s.loop_index + 1 := hj
    by_cases hji : j = s.loop_index
    · subst hji
      exact heq
    · exact hpref j (by omega)
  · show s.loop_index + 1 < s.to_sort.length
    omega
  · show s.to_sort.length - (s.loop_index + 1) + unfixedCount s.new_indexes <
      s.to_sort.length - s.loop_index + unfixedCount s.new_indexes
    omega

/-- Variant of `moveInv_advance` phrased on the state exactly as it appears
in `move_items_loop` (with the no-op self swaps still in place). -/
theorem moveInv_advance2 {r : List Nat} {s : IncrementalSorter}
    (hInv : MoveInv r s)
    (heq : s.new_indexes.getD s.loop_index 0 = s.loop_index)
    (hnotend : s.loop_index + 1 ≠ s.to_sort.length) :
    MoveInv r { s with
      loop_index := s.loop_index + 1,
      to_sort := listSwap s.to_sort s.loop_index
        (s.new_indexes.getD s.loop_index 0),
      new_indexes := listSwap s.new_indexes s.loop_index
        (s.new_indexes.getD s.loop_index 0) } ∧
    moveMeasure { s with
      loop_index := s.loop_index + 1,
      to_sort := listSwap s.to_sort s.loop_index
        (s.new_indexes.getD s.loop_index 0),
      new_indexes := listSwap s.new_indexes s.loop_index
        (s.new_indexes.getD s.loop_index 0) } < moveMeasure s := by
  have hloop := hInv.2.2.2.2.2.1
  have hplen := hInv.2.1
  rw [heq, listSwap_self hloop, listSwap_self (by omega)]
  exact moveInv_advance hInv heq hnotend

/-- Behaviour of one full `move_items` call under the phase invariant: if it
reports completion the buffer holds exactly the target contents `r`;
otherwise the invariant still holds and (for a positive budget) the measure
strictly decreased. -/
theorem move_items_loop_run {r : List Nat} : ∀ (fuel : Nat)
    (s : IncrementalSorter), MoveInv r s →
    ((move_items_loop fuel s).2 = true →
        (move_items_loop fuel s).1.to_sort = r) ∧
    ((move_items_loop fuel s).2 = false →
        MoveInv r (move_items_loop fuel s).1 ∧
        moveMeasure (move_items_loop fuel s).1 ≤ moveMeasure s ∧
        (1 ≤ fuel → moveMeasure (move_items_loop fuel s).1 < moveMeasure s)) := by
  intro fuel
  induction fuel with
  | zero =>
      intro s hInv
      refine ⟨?_, ?_⟩
      · intro h
        cases h
      · intro _
        exact ⟨hInv, Nat.le_refl _, by omega⟩
  | succ fuel ih =>
      intro s hInv
      obtain ⟨hstate, hplen, hrlen, hperm, hpref, hloop, hplaced⟩ := hInv
      have hInv' : MoveInv r s :=
        ⟨hstate, hplen, hrlen, hperm, hpref, hloop, hplaced⟩
      simp only [move_items_loop]
      split
      case isTrue heq =>
        split
        case isTrue hend =>
          -- the cursor reached the end: the table is the identity and the
          -- buffer equals the target contents
          have hend' : s.loop_index + 1 = s.to_sort.length := hend
          have hrange : s.new_indexes = List.range s.to_sort.length := by
            apply ext_getD (by rw [hplen, List.length_range])
            intro j hj
            rw [hplen] at hj
            rw [range_getD hj]
            by_cases hji : j = s.loop_index
            · subst hji
              exact heq
            · exact hpref j (by omega)
          have hfinal : s.to_sort = r := by
            apply ext_getD (by omega)
            intro k hk
            have := hplaced k hk
            rw [hrange, range_getD hk] at this
            exact this.symm
          constructor
          · intro _
            exact hfinal
          · intro h
            cases h
        case isFalse hend =>
          -- identity swap, cursor advance, recurse
          have hnotend : s.loop_index + 1 ≠ s.to_sort.length := hend
          obtain ⟨hInv₂, hdec⟩ := moveInv_advance2 hInv' heq hnotend
          obtain ⟨htrue, hfalse⟩ := ih _ hInv₂
          constructor
          · exact htrue
          · intro hf
            obtain ⟨h1, h2, _⟩ := hfalse hf
            exact ⟨h1, by omega, fun _ => by omega⟩
      case isFalse hne =>
        obtain ⟨hInv₂, hdec⟩ := moveInv_swap hInv' hne
        obtain ⟨htrue, hfalse⟩ := ih _ hInv₂
        constructor
        · exact htrue
        · intro hf
          obtain ⟨h1, h2, _⟩ := hfalse hf
          exact ⟨h1, by omega, fun _ => by omega⟩

/-- Driving a `Moving` state with positive budget to the end of the digit
pass: finitely many `sort` calls reach a final call whose post-state holds
exactly the target contents, with the digit advanced and either `Finished`
(returning `true`) or a fresh `Counting` pass (returning `false`). -/
theorem move_runs : ∀ (m : Nat) (s : IncrementalSorter) (r : List Nat),
    MoveInv r s → moveMeasure s ≤ m → 1 ≤ s.iterations_per_call →
    ∃ k s₁ s₂ rb, stepN s k = Except.ok s₁ ∧ sort s₁ = Except.ok (s₂, rb) ∧
      s₂.to_sort = r ∧
      s₂.digit_index = s.digit_index + 1 ∧
      s₂.max_digit_index = s.max_digit_index ∧
      s₂.iterations_per_call = s.iterations_per_call ∧
      ((s.digit_index + 1 = s.max_digit_index ∧ rb = true ∧
          s₂.state = SorterState.Finished) ∨
        (s.digit_index + 1 ≠ s.max_digit_index ∧ rb = false ∧
          s₂.state = SorterState.Counting ∧ s₂.loop_index = 0 ∧
          s₂.accumulator = 0 ∧ s₂.new_indexes = [])) := by
  intro m
  induction m with
  | zero =>
      intro s r hInv hm _
      have hloop := hInv.2.2.2.2.2.1
      have : 1 ≤ moveMeasure s := by
        rw [moveMeasure]
        omega
      omega
  | succ m ih =>
      intro s r hInv hm hb
      have hstate := hInv.1
      obtain ⟨htrue, hfalse⟩ := move_items_loop_run s.iterations_per_call s hInv
      cases hdone : (move_items_loop s.iterations_per_call s).2
      · -- the call does not finish the pass: measure decreased, recurse
        obtain ⟨hInv₂, _, hlt⟩ := hfalse hdone
        have hd : (move_items_loop s.iterations_per_call s).1.digit_index =
            s.digit_index := move_items_loop_digit ..
        have hmx : (move_items_loop s.iterations_per_call s).1.max_digit_index =
            s.max_digit_index := move_items_loop_max ..
        have hit : (move_items_loop s.iterations_per_call s).1.iterations_per_call =
            s.iterations_per_call := move_items_loop_iters ..
        have hsorteq : sort s = Except.ok
            ((move_items_loop s.iterations_per_call s).1, false) := by
          rw [sort, hstate]
          dsimp only [move_items]
          rw [hdone]
          rfl
        obtain ⟨k, s₁, s₂, rb, hstep, hlast, hts, hdg, hmx2, hit2, hbr⟩ :=
          ih (move_items_loop s.iterations_per_call s).1 r hInv₂
            (by have := hlt hb; omega) (by rw [hit]; exact hb)
        refine ⟨k + 1, s₁, s₂, rb, ?_, hlast, hts, ?_, ?_, ?_, ?_⟩
        · rw [stepN_succ, hsorteq]
          exact hstep
        · rw [hdg, hd]
        · rw [hmx2, hmx]
        · rw [hit2, hit]
        · rw [hd, hmx] at hbr
          exact hbr
      · -- the call finishes the pass: the very next call is the digit
        -- transition
        have htr := htrue hdone
        have hd : (move_items_loop s.iterations_per_call s).1.digit_index =
            s.digit_index := move_items_loop_digit ..
        have hmx : (move_items_loop s.iterations_per_call s).1.max_digit_index =
            s.max_digit_index := move_items_loop_max ..
        have hit : (move_items_loop s.iterations_per_call s).1.iterations_per_call =
            s.iterations_per_call := move_items_loop_iters ..
        by_cases hc : s.digit_index + 1 = s.max_digit_index
        · refine ⟨0, s, { (move_items_loop s.iterations_per_call s).1 with
            digit_index :=
              (move_items_loop s.iterations_per_call s).1.digit_index + 1,
            state := SorterState.Finished }, true, rfl, ?_, htr, ?_, hmx, hit,
            Or.inl ⟨hc, rfl, rfl⟩⟩
          · rw [sort, hstate]
            dsimp only [move_items]
            rw [hdone]
            simp only [Bool.not_true, Bool.false_eq_true, if_false]
            rw [if_pos (by rw [hd, hmx]; exact hc)]
          · rw [hd]
        · refine ⟨0, s, { (move_items_loop s.iterations_per_call s).1 with
            digit_index :=
              (move_items_loop s.iterations_per_call s).1.digit_index + 1,
            state := SorterState.Counting,
            new_indexes := [],
            loop_index := 0,
            accumulator := 0 }, false, rfl, ?_, htr, ?_, hmx, hit,
            Or.inr ⟨hc, rfl, rfl, rfl, rfl, rfl⟩⟩
          · rw [sort, hstate]
            dsimp only [move_items]
            rw [hdone]
            simp only [Bool.not_true, Bool.false_eq_true, if_false]
            rw [if_neg (by rw [hd, hmx]; exact hc)]
          · rw [hd]

/-- One full digit pass: from a pass-start `Counting` state, finitely many
`sort` calls reach the final call of the pass, whose post-state holds the
stable partition of the buffer by the current digit. -/
theorem pass_runs {s : IncrementalSorter}
    (hstate : s.state = SorterState.Counting)
    (hb : 1 ≤ s.iterations_per_call)
    (hloop : s.loop_index = 0) (hacc : s.accumulator = 0)
    (hni : s.new_indexes = []) (hn : 1 ≤ s.to_sort.length) :
    ∃ k s₁ s₂ rb, stepN s k = Except.ok s₁ ∧ sort s₁ = Except.ok (s₂, rb) ∧
      s₂.to_sort = stablePartition s.digit_index s.to_sort ∧
      s₂.digit_index = s.digit_index + 1 ∧
      s₂.max_digit_index = s.max_digit_index ∧
      s₂.iterations_per_call = s.iterations_per_call ∧
      ((s.digit_index + 1 = s.max_digit_index ∧ rb = true ∧
          s₂.state = SorterState.Finished) ∨
        (s.digit_index + 1 ≠ s.max_digit_index ∧ rb = false ∧
          s₂.state = SorterState.Counting ∧ s₂.loop_index = 0 ∧
          s₂.accumulator = 0 ∧ s₂.new_indexes = [])) := by
  have hdrop0 : s.to_sort.drop s.loop_index = s.to_sort := by
    rw [hloop, List.drop_zero]
  have hA : s.accumulator + cntF s.digit_index (s.to_sort.drop s.loop_index) =
      cntF s.digit_index s.to_sort := by
    rw [hacc, hdrop0, Nat.zero_add]
  obtain ⟨k₁, sC, hstep1, hsC⟩ := counting_runs s.to_sort.length s hstate hb
    (by omega) (by omega)
  subst hsC
  obtain ⟨k₂, sM, hstep2, hsM⟩ := compute_runs s.to_sort.length
    { s with
      state := SorterState.ComputeIndexes,
      loop_index := 0,
      false_count := 0,
      accumulator :=
        s.accumulator + cntF s.digit_index (s.to_sort.drop s.loop_index),
      true_count :=
        s.accumulator + cntF s.digit_index (s.to_sort.drop s.loop_index) }
    rfl hb (Nat.zero_le _) (Nat.sub_le _ _)
  subst hsM
  have htab : ∀ x : List Nat, x = s.new_indexes ++
        specTargetTable s.digit_index
          (s.accumulator + cntF s.digit_index (s.to_sort.drop s.loop_index)) 0
          (s.to_sort.drop 0) →
      x = specTargetTable s.digit_index (cntF s.digit_index s.to_sort) 0
        s.to_sort := by
    intro x hx
    rw [hx, hni, hA, List.drop_zero, List.nil_append]
  have htab' := htab _ rfl
  have hInvM : MoveInv (stablePartition s.digit_index s.to_sort)
      { { s with
          state := SorterState.ComputeIndexes,
          loop_index := 0,
          false_count := 0,
          accumulator :=
            s.accumulator + cntF s.digit_index (s.to_sort.drop s.loop_index),
          true_count :=
            s.accumulator + cntF s.digit_index (s.to_sort.drop s.loop_index) }
        with
        state := SorterState.MoveItems,
        loop_index := 0,
        new_indexes := s.new_indexes ++
          specTargetTable s.digit_index
            (s.accumulator + cntF s.digit_index (s.to_sort.drop s.loop_index)) 0
            (s.to_sort.drop 0),
        true_count :=
          (s.accumulator + cntF s.digit_index (s.to_sort.drop s.loop_index)) +
            cntT s.digit_index (s.to_sort.drop 0),
        false_count := 0 + cntF s.digit_index (s.to_sort.drop 0) } := by
    refine ⟨rfl, ?_, ?_, ?_, ?_, ?_, ?_⟩
    · show (s.new_indexes ++ _).length = s.to_sort.length
      rw [htab', specTargetTable_length]
    · exact stablePartition_length ..
    · show List.Perm (s.new_indexes ++ _) (List.range s.to_sort.length)
      rw [htab']
      exact specTargetTable_perm_range ..
    · intro j hj
      have hj' : j < 0 := hj
      omega
    · show (0 : Nat) < s.to_sort.length
      omega
    · intro i hi
      show (stablePartition s.digit_index s.to_sort).getD
          ((s.new_indexes ++ _).getD i 0) 0 = s.to_sort.getD i 0
      rw [htab']
      exact stablePartition_placed s.digit_index s.to_sort hi
  obtain ⟨k₃, s₁, s₂, rb, hstep3, hlast, hts, hdg, hmx, hit, hbr⟩ :=
    move_runs (moveMeasure _) _ _ hInvM (Nat.le_refl _) hb
  refine ⟨k₁ + k₂ + k₃, s₁, s₂, rb, ?_, hlast, hts, hdg, hmx, hit, hbr⟩
  exact stepN_trans _ (stepN_trans _ hstep1 hstep2) hstep3

/-- Running from any fresh pass-start `Counting` state with at least one pass
left: finitely many `sort` calls reach a final call that returns `true`, leaves
the machine `Finished`, and leaves the buffer equal to the remaining stable
partition passes applied in least-significant-digit order. -/
theorem run_to_finish : ∀ (m : Nat) (s : IncrementalSorter),
    s.max_digit_index - s.digit_index ≤ m →
    s.state = SorterState.Counting →
    1 ≤ s.iterations_per_call →
    s.loop_index = 0 → s.accumulator = 0 → s.new_indexes = [] →
    1 ≤ s.to_sort.length →
    s.digit_index < s.max_digit_index →
    ∃ k s₁ s₂, stepN s k = Except.ok s₁ ∧ sort s₁ = Except.ok (s₂, true) ∧
      s₂.state = SorterState.Finished ∧
      s₂.to_sort = passesFrom s.to_sort s.digit_index
        (s.max_digit_index - s.digit_index) ∧
      s₂.iterations_per_call = s.iterations_per_call := by
  intro m
  induction m with
  | zero =>
      intro s hm hstate hb hloop hacc hni hn hd
      exact absurd hm (by omega)
  | succ m ih =>
      intro s hm hstate hb hloop hacc hni hn hd
      obtain ⟨k, s₁, s₂, rb, hstep, hlast, hts, hdg, hmx, hit, hbr⟩ :=
        pass_runs hstate hb hloop hacc hni hn
      rcases hbr with ⟨heq, hrb, hfin⟩ | ⟨hne, hrb, hcnt, hloop2, hacc2, hni2⟩
      · subst hrb
        refine ⟨k, s₁, s₂, hstep, hlast, hfin, ?_, hit⟩
        have h1 : s.max_digit_index - s.digit_index = 1 := by omega
        rw [h1]
        exact hts
      · obtain ⟨k', s₁', s₂', hstep', hlast', hfin', hts', hit'⟩ :=
          ih s₂ (by rw [hdg, hmx]; omega) hcnt (by rw [hit]; exact hb)
            hloop2 hacc2 hni2
            (by rw [hts, stablePartition_length]; exact hn)
            (by rw [hdg, hmx]; omega)
        have h1 : stepN s₁ 1 = Except.ok s₂ := by
          rw [stepN_succ, hlast]
          rfl
        refine ⟨k + 1 + k', s₁', s₂',
          stepN_trans (k + 1) (stepN_trans k hstep h1) hstep', hlast', hfin',
          ?_, by rw [hit', hit]⟩
        rw [hts', hts, hdg, hmx]
        have hm1 : s.max_digit_index - s.digit_index =
            (s.max_digit_index - (s.digit_index + 1)) + 1 := by omega
        rw [hm1]
        rfl

/-! ## Least-significant-digit sortedness

One partition pass on bit `d` refines sortedness of the values modulo `2^d`
into sortedness modulo `2^(d+1)`; once every bit below the probed width has
been processed, the values — all smaller than `2^width` — are sorted. -/

theorem get_bit_eq_decide (d x : Nat) :
    get_bit d x = decide (x / 2 ^ d % 2 = 1) := Nat.testBit_to_div_mod

theorem mod_two_pow_succ (d x : Nat) :
    x % 2 ^ (d + 1) = x % 2 ^ d + 2 ^ d * (x / 2 ^ d % 2) := by
  rw [Nat.pow_succ]
  exact Nat.mod_mul

theorem get_bit_false_mod {d x : Nat} (h : get_bit d x = false) :
    x % 2 ^ (d + 1) = x % 2 ^ d := by
  rw [get_bit_eq_decide] at h
  have h1 : x / 2 ^ d % 2 ≠ 1 := by simpa using h
  have h2 : x / 2 ^ d % 2 = 0 := by omega
  rw [mod_two_pow_succ, h2, Nat.mul_zero, Nat.add_zero]

theorem get_bit_true_mod {d x : Nat} (h : get_bit d x = true) :
    x % 2 ^ (d + 1) = 2 ^ d + x % 2 ^ d := by
  rw [get_bit_eq_decide] at h
  have h1 : x / 2 ^ d % 2 = 1 := by simpa using h
  rw [mod_two_pow_succ, h1, Nat.mul_one, Nat.add_comm]

/-- The load-bearing LSD property (spec §4.4): a stable partition by bit `d`
turns mod-`2^d` sortedness into mod-`2^(d+1)` sortedness. -/
theorem stablePartition_pairwise {d : Nat} {v : List Nat}
    (h : List.Pairwise (fun a b => a % 2 ^ d ≤ b % 2 ^ d) v) :
    List.Pairwise (fun a b => a % 2 ^ (d + 1) ≤ b % 2 ^ (d + 1))
      (stablePartition d v) := by
  rw [stablePartition, List.pairwise_append]
  refine ⟨?_, ?_, ?_⟩
  · refine (h.sublist (List.filter_sublist v)).imp_of_mem ?_
    intro a b ha hb hab
    rw [List.mem_filter] at ha hb
    have ha' : get_bit d a = false := by simpa using ha.2
    have hb' : get_bit d b = false := by simpa using hb.2
    rw [get_bit_false_mod ha', get_bit_false_mod hb']
    exact hab
  · refine (h.sublist (List.filter_sublist v)).imp_of_mem ?_
    intro a b ha hb hab
    rw [List.mem_filter] at ha hb
    have ha' : get_bit d a = true := by simpa using ha.2
    have hb' : get_bit d b = true := by simpa using hb.2
    rw [get_bit_true_mod ha', get_bit_true_mod hb']
    omega
  · intro a ha b hb
    rw [List.mem_filter] at ha hb
    have ha' : get_bit d a = false := by simpa using ha.2
    have hb' : get_bit d b = true := by simpa using hb.2
    rw [get_bit_false_mod ha', get_bit_true_mod hb']
    have hlt : a % 2 ^ d < 2 ^ d := Nat.mod_lt _ (Nat.two_pow_pos d)
    omega

/-- Any list is sorted modulo `2^0 = 1`. -/
theorem pairwise_mod_one (v : List Nat) :
    List.Pairwise (fun a b => a % 2 ^ 0 ≤ b % 2 ^ 0) v := by
  induction v with
  | nil => exact List.Pairwise.nil
  | cons x xs ih =>
      exact List.Pairwise.cons (fun b _ => by simp [Nat.mod_one]) ih

theorem passesFrom_pairwise : ∀ (m d : Nat) (v : List Nat),
    List.Pairwise (fun a b => a % 2 ^ d ≤ b % 2 ^ d) v →
    List.Pairwise (fun a b => a % 2 ^ (d + m) ≤ b % 2 ^ (d + m))
      (passesFrom v d m)
  | 0, _, _, h => h
  | Nat.succ m, d, v, h => by
      have ih := passesFrom_pairwise m (d + 1) (stablePartition d v)
        (stablePartition_pairwise h)
      have heq : d + Nat.succ m = d + 1 + m := by omega
      rw [heq]
      exact ih

theorem passesFrom_perm : ∀ (m d : Nat) (v : List Nat),
    List.Perm (passesFrom v d m) v
  | 0, _, _ => List.Perm.refl _
  | Nat.succ m, d, v =>
      List.Perm.trans (passesFrom_perm m (d + 1) (stablePartition d v))
        (stablePartition_perm d v)

/-! ## The probed bit width covers every element -/

theorem bitLenAux_le : ∀ (fuel n : Nat), bitLenAux fuel n ≤ fuel
  | 0, _ => Nat.le_refl 0
  | Nat.succ fuel, n => by
      simp only [bitLenAux]
      split
      · exact Nat.zero_le _
      · exact Nat.succ_le_succ (bitLenAux_le fuel (n / 2))

theorem lt_two_pow_bitLenAux : ∀ (fuel n : Nat), n < 2 ^ fuel →
    n < 2 ^ bitLenAux fuel n
  | 0, _, h => h
  | Nat.succ fuel, n, h => by
      have h' : n < 2 ^ (fuel + 1) := h
      simp only [bitLenAux]
      split
      case isTrue hz =>
        subst hz
        exact Nat.one_pos
      case isFalse hz =>
        have hp : 2 ^ (fuel + 1) = 2 ^ fuel * 2 := Nat.pow_succ ..
        have h2 : n / 2 < 2 ^ fuel := by omega
        have ih := lt_two_pow_bitLenAux fuel (n / 2) h2
        have hp2 : 2 ^ (bitLenAux fuel (n / 2) + 1) =
            2 ^ bitLenAux fuel (n / 2) * 2 := Nat.pow_succ ..
        omega

/-- Every `usize` value is below `2 ^ (64 - leading_zeros)`; this is what
makes the prober's pass count sufficient. -/
theorem lt_two_pow_sub_leadingZeros {x : Nat} (hx : x < 2 ^ totalBits) :
    x < 2 ^ (totalBits - leadingZeros x) := by
  have h1 : bitLen x ≤ totalBits := bitLenAux_le totalBits x
  have h2 : totalBits - leadingZeros x = bitLen x := by
    rw [leadingZeros]
    omega
  rw [h2]
  exact lt_two_pow_bitLenAux totalBits x hx

/-- C3 witness: the prepared sorter for `[2, 1]` has `digit_index = 0 ≤ 2 =
max_digit_index`. -/
theorem C3_witness :
    (∃ x ∈ ([2, 1] : List Nat), x ≠ 0) ∧ (0 : Nat) ≤ 2 :=
  ⟨⟨2, by simp, by decide⟩,
   @C3_digit_le_max [2, 1] 32
     { iterations_per_call := 32, to_sort := [2, 1],
       state := SorterState.Counting, max_digit_index := 2, digit_index := 0,
       new_indexes := [], loop_index := 0, true_count := 0, false_count := 0,
       accumulator := 0 }
     ⟨2, by simp, by decide⟩ (ReachableFrom.prepared _ rfl)⟩

set_option maxRecDepth 4000 in
/-- C1 counterexample: the claim quantifies over *every* finite sequence of
unsigned integers, but on the empty sequence `prepare` already panics
(`min()` over an empty iterator is `None` and is unwrapped), and on the
all-zero sequence `[0]` with budget 1 stepping never returns `true`: after
200 calls the machine is still not `Finished` — the prober set
`max_digit_index = 0` and `digit_index` has run past it to 66 — so "stepping
until it returns true" never terminates, let alone with a sorted result. -/
theorem C1_counterexample :
    prepare (with_iterations_per_call ([] : List Nat) 1) =
        Except.error unwrapMsg ∧
    (afterPrepareSteps [0] 1 200).map
        (fun s => (s.digit_index, s.max_digit_index,
          decide (s.state = SorterState.Finished))) =
      Except.ok (66, 0, false) := by
  constructor
  · rfl
  · rfl

/-- C1 (amended): for every input sequence holding at least one nonzero
element (ruling out the empty and all-zero inputs of `C1_counterexample`,
on which the run fails to start resp. to finish), with every element a
`usize` value (`< 2^64`) and for every positive iteration budget:
construction, one `prepare`, and finitely many `sort` (step) calls reach a
call that returns `true` and leaves the machine `Finished`, and extraction
(`get_result`) then yields a permutation of the input that is
non-decreasing — equal to the reference sort `List.insertionSort (· ≤ ·)`
of the input, a value independent of the chosen budget.  (The run is
deterministic, and a `true` return leaves the machine `Finished`, where any
further `sort` call panics; since all `k` earlier calls here succeeded and
were followed by another call, every earlier call returned `false`, so the
exhibited final call is exactly the first to return `true`.) -/
theorem C1_sorted_result {l : List Nat} {b : Nat}
    (hb : 1 ≤ b) (hnz : ∃ x ∈ l, x ≠ 0)
    (hlt : ∀ x ∈ l, x < 2 ^ totalBits) :
    ∃ s₀ k s₁ s₂, prepare (with_iterations_per_call l b) = Except.ok s₀ ∧
      stepN s₀ k = Except.ok s₁ ∧
      sort s₁ = Except.ok (s₂, true) ∧
      s₂.state = SorterState.Finished ∧
      List.Perm (get_result s₂) l ∧
      List.Sorted (· ≤ ·) (get_result s₂) ∧
      get_result s₂ = List.insertionSort (· ≤ ·) l := by
  obtain ⟨x0, hx0l, hx0⟩ := hnz
  have hlne : l ≠ [] := by
    intro h
    subst h
    exact absurd hx0l (List.not_mem_nil x0)
  cases hm : (l.map leadingZeros).min? with
  | none =>
      rw [List.min?_eq_none_iff] at hm
      exact absurd (by simpa using hm) hlne
  | some flz =>
      have hprep : prepare (with_iterations_per_call l b) = Except.ok
          { with_iterations_per_call l b with
            max_digit_index := totalBits - flz,
            state := SorterState.Counting } := by
        rw [prepare]
        simp only [with_iterations_per_call, new]
        rw [hm]
      have hmin := List.min?_eq_some_iff'.mp hm
      have hflz_le : ∀ y ∈ l, flz ≤ leadingZeros y := by
        intro y hy
        exact hmin.2 _ (List.mem_map_of_mem _ hy)
      have hmaxd : 1 ≤ totalBits - flz := by
        have hbl : 1 ≤ bitLen x0 := bitLen_pos hx0
        have hlz : leadingZeros x0 ≤ 63 := by
          rw [leadingZeros, show totalBits = 64 from rfl]
          omega
        have := hflz_le x0 hx0l
        rw [show totalBits = 64 from rfl]
        omega
      have hbound : ∀ y ∈ l, y < 2 ^ (totalBits - flz) := by
        intro y hy
        have h1 : y < 2 ^ (totalBits - leadingZeros y) :=
          lt_two_pow_sub_leadingZeros (hlt y hy)
        have h2 : totalBits - leadingZeros y ≤ totalBits - flz := by
          have := hflz_le y hy
          omega
        exact Nat.lt_of_lt_of_le h1 (Nat.pow_le_pow_right (by omega) h2)
      obtain ⟨k, s₁, s₂, hstep, hlast, hfin, hts, hit⟩ :=
        run_to_finish (totalBits - flz)
          { with_iterations_per_call l b with
            max_digit_index := totalBits - flz,
            state := SorterState.Counting }
          (by show totalBits - flz - 0 ≤ totalBits - flz; omega)
          rfl hb rfl rfl rfl
          (by show 1 ≤ l.length; exact List.length_pos.mpr hlne)
          (by show (0 : Nat) < totalBits - flz; exact hmaxd)
      have hts' : s₂.to_sort = passesFrom l 0 (totalBits - flz) := hts
      have hmem : ∀ y ∈ passesFrom l 0 (totalBits - flz),
          y < 2 ^ (totalBits - flz) := by
        intro y hy
        exact hbound y ((passesFrom_perm _ 0 l).mem_iff.mp hy)
      have hpw := passesFrom_pairwise (totalBits - flz) 0 l (pairwise_mod_one l)
      have hsorted' : List.Pairwise (· ≤ ·)
          (passesFrom l 0 (totalBits - flz)) := by
        refine hpw.imp_of_mem ?_
        intro a c ha hc hac
        rw [Nat.zero_add] at hac
        rwa [Nat.mod_eq_of_lt (hmem a ha), Nat.mod_eq_of_lt (hmem c hc)] at hac
      have hsorted : List.Sorted (· ≤ ·)
          (passesFrom l 0 (totalBits - flz)) := hsorted'
      have hins : passesFrom l 0 (totalBits - flz) =
          List.insertionSort (· ≤ ·) l := by
        refine List.eq_of_perm_of_sorted ?_ hsorted
          (List.sorted_insertionSort _ _)
        exact (passesFrom_perm _ 0 l).trans (List.perm_insertionSort _ l).symm
      refine ⟨_, k, s₁, s₂, hprep, hstep, hlast, hfin, ?_, ?_, ?_⟩
      · show List.Perm s₂.to_sort l
        rw [hts']
        exact passesFrom_perm _ 0 l
      · show List.Sorted (· ≤ ·) s₂.to_sort
        rw [hts']
        exact hsorted
      · show s₂.to_sort = List.insertionSort (· ≤ ·) l
        rw [hts']
        exact hins

/-- C1 witness: the input `[2, 1]` with budget 1 satisfies the hypotheses,
and the run therefore finishes with the sorted buffer `[1, 2]`. -/
theorem C1_witness :
    ((1 : Nat) ≤ 1 ∧ (∃ x ∈ [2, 1], x ≠ 0) ∧
      (∀ x ∈ [2, 1], x < 2 ^ totalBits)) ∧
    (∃ s₀ k s₁ s₂,
      prepare (with_iterations_per_call [2, 1] 1) = Except.ok s₀ ∧
      stepN s₀ k = Except.ok s₁ ∧
      sort s₁ = Except.ok (s₂, true) ∧
      s₂.state = SorterState.Finished ∧
      List.Perm (get_result s₂) [2, 1] ∧
      List.Sorted (· ≤ ·) (get_result s₂) ∧
      get_result s₂ = List.insertionSort (· ≤ ·) [2, 1]) :=
  ⟨⟨by decide, by decide, by decide⟩,
    C1_sorted_result (by decide) (by decide) (by decide)⟩

end IncrementalSort
